import Mathlib

/-!
Verification of the schema reference-resolution and bundling pipeline
(`scripts/resolve-event-refs.py`, `scripts/resolve-api-refs.py`,
`scripts/extract-archive-schemas.py`, `scripts/embed-meta-schemas.py`,
`scripts/generate-client-schema.py`, `scripts/generate-resource-templates.py`).

Documents are parsed YAML trees; we embed them as a nested inductive `Node`
(mappings are association lists in insertion order, exactly as `ruamel.yaml`
round-trips Python dicts).  The regular expressions used by the scripts to
classify `$ref` strings are embedded as deterministic string functions whose
doc comments cite the pattern they implement; Python's `re.match` matches a
prefix of the string, anchored at the start, with leftmost-greedy
backtracking, and the embeddings reproduce that behaviour case by case.
-/

namespace SchemaRes

/-- Document tree node: YAML scalars, sequences and (insertion-ordered) mappings.
Mirrors the Python-side values the scripts traverse. -/
inductive Node where
  | null  : Node
  | bool  : Bool → Node
  | num   : Int → Node
  | str   : String → Node
  | arr   : List Node → Node
  | map   : List (String × Node) → Node

/-- Python dict lookup (`obj[k]` / `obj.get(k)`) over an association list. -/
def lookupKey (k : String) : List (String × Node) → Option Node
  | [] => none
  | (a, v) :: rest => if a = k then some v else lookupKey k rest

/-- Keys of an association list, in insertion order. -/
def keysOf (l : List (String × Node)) : List String := l.map Prod.fst

/-- Python `k in obj`. -/
def hasKey (l : List (String × Node)) (k : String) : Bool := (lookupKey k l).isSome

/-- Python dict assignment `obj[k] = v`: replaces the value in place if the key
exists (keeping its position), otherwise appends. -/
def mapInsert (l : List (String × Node)) (k : String) (v : Node) : List (String × Node) :=
  match l with
  | [] => [(k, v)]
  | (a, w) :: rest => if a = k then (a, v) :: rest else (a, w) :: mapInsert rest k v

/-- Python truthiness of a YAML value (`if x:`). -/
def truthy : Node → Bool
  | .null => false
  | .bool b => b
  | .num n => n ≠ 0
  | .str s => s ≠ ""
  | .arr xs => ¬ xs.isEmpty
  | .map kvs => ¬ kvs.isEmpty

/-! ## Character classes and string primitives used by the embedded regexes -/

/-- The apostrophe character (written via its code point to keep the source
free of quote-character literals). -/
def squote : Char := Char.ofNat 39

/-- The double-quote character. -/
def dquote : Char := Char.ofNat 34

/-- The newline character (the only character Python's `.` does not match). -/
def nlChar : Char := Char.ofNat 10

/-- Membership in the regex class `['\"]`. -/
def isQuoteChar (c : Char) : Bool := c = squote ∨ c = dquote

/-- Membership in `[a-zA-Z]`. -/
def isAlphaChar (c : Char) : Bool :=
  ('a' ≤ c ∧ c ≤ 'z') ∨ ('A' ≤ c ∧ c ≤ 'Z')

/-- Membership in `[a-zA-Z0-9_-]`. -/
def isNameChar (c : Char) : Bool :=
  isAlphaChar c ∨ ('0' ≤ c ∧ c ≤ '9') ∨ c = '_' ∨ c = '-'

/-- The leading `['\"]?` of every pattern: consume one quote character if
present (a quote can never alternatively start the rest of these patterns,
so this is deterministic). -/
def stripQuote : List Char → List Char
  | [] => []
  | c :: cs => if isQuoteChar c then cs else c :: cs

/-- Greedy `([^'\"]+)`: the maximal quote-free run. -/
def takeNonQuote (l : List Char) : List Char := l.takeWhile (fun c => ¬ isQuoteChar c)

/-- Literal-prefix test used to embed the fixed parts of the patterns. -/
def listStartsWith : List Char → List Char → Bool
  | [], _ => true
  | _ :: _, [] => false
  | p :: ps, c :: cs => p = c ∧ listStartsWith ps cs

/-- The fixed fragment `#/components/schemas/` (21 characters). -/
def compSchemasPat : List Char := ("#/components/schemas/").data

/-! ## Embedded `$ref` pattern matchers

Each matcher is the deterministic unfolding of one `re.match` call in the
scripts.  Group contents are returned as `String`s.
-/

/-- Greedy group step shared by the cross-file matchers of
`resolve-event-refs.py`: `([^#'\"]+)#/components/schemas/([^'\"]+)`.
`l` is the input positioned at the group; returns `(group1, group2)`. -/
def crossGroup (l : List Char) : Option (String × String) :=
  if l.takeWhile (fun c => c ≠ '#' ∧ ¬ isQuoteChar c) = [] then none
  else if listStartsWith compSchemasPat
      (l.drop (l.takeWhile (fun c => c ≠ '#' ∧ ¬ isQuoteChar c)).length) then
    if takeNonQuote ((l.drop (l.takeWhile (fun c => c ≠ '#' ∧ ¬ isQuoteChar c)).length).drop 21) = []
    then none
    else some (String.mk (l.takeWhile (fun c => c ≠ '#' ∧ ¬ isQuoteChar c)),
      String.mk (takeNonQuote ((l.drop (l.takeWhile (fun c => c ≠ '#' ∧ ¬ isQuoteChar c)).length).drop 21)))
  else none

/-- Matcher for `find_cross_file_refs` in `resolve-event-refs.py`:
`re.match(r"['\"]?\.\.?/?([^#'\"]+)#/components/schemas/([^'\"]+)['\"]?", ref)`.
After the mandatory `\.`, the optional `\.?` and `/?` are tried greedily with
backtracking; `crossGroup` handles the two capture groups. -/
def match_cross_event (s : String) : Option (String × String) :=
  match stripQuote s.data with
  | [] => none
  | c :: u =>
    if c = '.' then
      match u with
      | [] => crossGroup u
      | c2 :: v =>
        if c2 = '.' then
          (match v with
           | c3 :: w =>
             if c3 = '/' then (crossGroup w).orElse (fun _ => (crossGroup v).orElse (fun _ => crossGroup u))
             else (crossGroup v).orElse (fun _ => crossGroup u)
           | [] => (crossGroup v).orElse (fun _ => crossGroup u))
        else if c2 = '/' then (crossGroup v).orElse (fun _ => crossGroup u)
        else crossGroup u
    else none

/-- Matcher for the base pattern of `find_local_refs` (both resolver scripts):
`re.match(r"['\"]?(?:\./?)?#/components/schemas/([^'\"]+)['\"]?", ref)`. -/
def localTarget (l : List Char) : List Char :=
  match l with
  | [] => l
  | c :: r =>
    if c = '.' then (match r with
      | [] => r
      | c2 :: r2 => if c2 = '/' then r2 else r)
    else l

def match_local_ref (s : String) : Option String :=
  if listStartsWith compSchemasPat (localTarget (stripQuote s.data)) then
    if takeNonQuote ((localTarget (stripQuote s.data)).drop 21) = [] then none
    else some (String.mk (takeNonQuote ((localTarget (stripQuote s.data)).drop 21)))
  else none

/-- Matcher for the `source_file`-qualified branch of `find_local_refs` in
`resolve-event-refs.py`:
`re.match(rf"['\"]?{re.escape(source_file)}#/components/schemas/([^'\"]+)['\"]?", ref)`,
tried only when the base pattern did not match. -/
def match_src_qualified (src : String) (s : String) : Option String :=
  if listStartsWith src.data (stripQuote s.data) then
    if listStartsWith compSchemasPat ((stripQuote s.data).drop src.data.length) then
      if takeNonQuote (((stripQuote s.data).drop src.data.length).drop 21) = [] then none
      else some (String.mk (takeNonQuote (((stripQuote s.data).drop src.data.length).drop 21)))
    else none
  else none

/-- Classifier of `find_local_refs(obj, refs, source_file)` applied to one
`$ref` string: base local pattern first, then the filename-qualified form. -/
def classify_local (src : Option String) (s : String) : Option String :=
  match match_local_ref s with
  | some t => some t
  | none => match src with
    | some f => match_src_qualified f s
    | none => none

/-- Matcher for the cross-file pattern of `convert_refs_to_local` in
`resolve-event-refs.py`:
`re.match(r"['\"]?\.\.?/?[^#]+#/components/schemas/([^'\"]+)['\"]?", ref)`.
Because `.` and `/` also belong to `[^#]`, the pattern matches exactly when,
after one mandatory dot, a nonempty `#`-free run is followed by the literal
`#/components/schemas/` and a nonempty quote-free type name. -/
def match_cross_conv (s : String) : Option String :=
  match stripQuote s.data with
  | [] => none
  | c :: u =>
    if c = '.' then
      if u.takeWhile (fun x => x ≠ '#') = [] then none
      else if listStartsWith compSchemasPat (u.drop (u.takeWhile (fun x => x ≠ '#')).length) then
        if takeNonQuote ((u.drop (u.takeWhile (fun x => x ≠ '#')).length).drop 21) = [] then none
        else some (String.mk (takeNonQuote ((u.drop (u.takeWhile (fun x => x ≠ '#')).length).drop 21)))
      else none
    else none

/-- Matcher for the self-qualified pattern of `convert_refs_to_local`:
`re.match(r"['\"]?\./?#/components/schemas/([^'\"]+)['\"]?", ref)`. -/
def selfTarget (u : List Char) : List Char :=
  match u with
  | [] => u
  | c2 :: r => if c2 = '/' then r else u

def match_self_conv (s : String) : Option String :=
  match stripQuote s.data with
  | [] => none
  | c :: u =>
    if c = '.' then
      if listStartsWith compSchemasPat (selfTarget u) then
        if takeNonQuote ((selfTarget u).drop 21) = [] then none
        else some (String.mk (takeNonQuote ((selfTarget u).drop 21)))
      else none
    else none

/-- Matcher for `fix_relative_paths_for_generated`:
`re.match(r"['\"]?([a-zA-Z][a-zA-Z0-9_-]*\.yaml)#(.+)['\"]?", ref)`.
Group 1 is the sibling file name (including `.yaml`); group 2 is everything
after `#` up to the first newline (Python's `.` does not match newlines). -/
def match_sibling (s : String) : Option (String × String) :=
  match stripQuote s.data with
  | c :: cs =>
    if isAlphaChar c then
      if listStartsWith (".yaml#").data (cs.drop (cs.takeWhile isNameChar).length) then
        if ((cs.drop (cs.takeWhile isNameChar).length).drop 6).takeWhile (fun x => x ≠ nlChar) = []
        then none
        else some (String.mk (c :: cs.takeWhile isNameChar) ++ ".yaml",
          String.mk (((cs.drop (cs.takeWhile isNameChar).length).drop 6).takeWhile
            (fun x => x ≠ nlChar)))
      else none
    else none
  | [] => none

/-- Core of the cross-file matcher shared by `resolve-api-refs.py`
(`find_allof_cross_file_refs`, `convert_cross_refs_to_local`) and
`extract-archive-schemas.py` (`find_refs_in_type`, `convert_refs_to_local`):
the `([a-zA-Z][^#'\"]+)#/components/schemas/([^'\"]+)` part. -/
def apiCrossCore (l : List Char) : Option (String × String) :=
  match l with
  | a :: rest =>
    if isAlphaChar a then
      if rest.takeWhile (fun c => c ≠ '#' ∧ ¬ isQuoteChar c) = [] then none
      else if listStartsWith compSchemasPat
          (rest.drop (rest.takeWhile (fun c => c ≠ '#' ∧ ¬ isQuoteChar c)).length) then
        if takeNonQuote ((rest.drop
            (rest.takeWhile (fun c => c ≠ '#' ∧ ¬ isQuoteChar c)).length).drop 21) = [] then none
        else some (String.mk (a :: rest.takeWhile (fun c => c ≠ '#' ∧ ¬ isQuoteChar c)),
          String.mk (takeNonQuote ((rest.drop
            (rest.takeWhile (fun c => c ≠ '#' ∧ ¬ isQuoteChar c)).length).drop 21)))
      else none
    else none
  | [] => none

/-- Matcher for
`re.match(r"['\"]?(?:\.\.?/)?([a-zA-Z][^#'\"]+)#/components/schemas/([^'\"]+)['\"]?", ref)`
(`resolve-api-refs.py` and `extract-archive-schemas.py`).  The optional
`(?:\.\.?/)?` requires its trailing slash, so only literal `./` or `../`
prefixes are consumed; if the consuming branch fails, the group must start
with a letter, which a leading dot can never satisfy. -/
def match_cross_api (s : String) : Option (String × String) :=
  let l := stripQuote s.data
  if listStartsWith ("../").data l then apiCrossCore (l.drop 3)
  else if listStartsWith ("./").data l then apiCrossCore (l.drop 2)
  else apiCrossCore l

/-- Matcher for the bare local pattern of `find_refs_in_type` in
`extract-archive-schemas.py`:
`re.match(r"['\"]?#/components/schemas/([^'\"]+)['\"]?", ref)` (no `./` option). -/
def match_local_archive (s : String) : Option String :=
  if listStartsWith compSchemasPat (stripQuote s.data) then
    if takeNonQuote ((stripQuote s.data).drop 21) = [] then none
    else some (String.mk (takeNonQuote ((stripQuote s.data).drop 21)))
  else none

/-! ## `$ref` string rewriters -/

/-- The canonical local pointer `#/components/schemas/{t}` produced by the
rewriters (written with string concatenation; no brace interpolation). -/
def localRefStr (t : String) : String := "#/components/schemas/" ++ t

/-- String-level action of `convert_refs_to_local` in `resolve-event-refs.py`
on one `$ref`: a cross-file ref to an inlined type becomes local; otherwise a
self-qualified `./#/...` ref becomes local; otherwise unchanged. -/
def convert_ref_event (inl : List String) (s : String) : String :=
  match match_cross_conv s with
  | some t =>
    if t ∈ inl then localRefStr t
    else match match_self_conv s with
      | some t2 => localRefStr t2
      | none => s
  | none => match match_self_conv s with
    | some t2 => localRefStr t2
    | none => s

/-- String-level action of `convert_cross_refs_to_local` in
`resolve-api-refs.py` (and `convert_refs_to_local` in
`extract-archive-schemas.py`) on one `$ref`. -/
def convert_ref_api (inl : List String) (s : String) : String :=
  match match_cross_api s with
  | some (_, t) => if t ∈ inl then localRefStr t else s
  | none => s

/-- String-level action of `fix_relative_paths_for_generated` on one `$ref`:
`obj['$ref'] = f"../{m.group(1)}#{m.group(2)}"`. -/
def fix_ref (s : String) : String :=
  match match_sibling s with
  | some (f, p) => "../" ++ f ++ "#" ++ p
  | none => s

/-! ### Sanity checks on the embedded matchers (concrete evaluations) -/

example : match_cross_event "../actor-api.yaml#/components/schemas/Pose" =
    some ("actor-api.yaml", "Pose") := by decide
example : match_cross_event "./actor-api.yaml#/components/schemas/Pose" =
    some ("actor-api.yaml", "Pose") := by decide
example : match_cross_event "./#/components/schemas/Pose" = some ("/", "Pose") := by decide
example : match_cross_event "actor-api.yaml#/components/schemas/Pose" = none := by decide
example : match_local_ref "#/components/schemas/Pose" = some "Pose" := by decide
example : match_local_ref "./#/components/schemas/Pose" = some "Pose" := by decide
example : match_local_ref "doc.yaml#/components/schemas/Pose" = none := by decide
example : match_src_qualified "doc.yaml" "doc.yaml#/components/schemas/Pose" =
    some "Pose" := by decide
example : match_cross_conv "./x.yaml#/components/schemas/T" = some "T" := by decide
example : match_cross_conv "x.yaml#/components/schemas/T" = none := by decide
example : match_self_conv "./#/components/schemas/T" = some "T" := by decide
example : match_self_conv "./x.yaml#/components/schemas/T" = none := by decide
example : match_sibling "common.yaml#/defs/Address" =
    some ("common.yaml", "/defs/Address") := by decide
example : match_sibling "../common.yaml#/defs/Address" = none := by decide
example : match_cross_api "common-api.yaml#/components/schemas/Base" =
    some ("common-api.yaml", "Base") := by decide
example : match_cross_api "./common-api.yaml#/components/schemas/Base" =
    some ("common-api.yaml", "Base") := by decide
example : match_cross_api "./#/components/schemas/Base" = none := by decide
example : fix_ref "common.yaml#/defs/Address" = "../common.yaml#/defs/Address" := by decide
example : fix_ref "#/components/schemas/T" = "#/components/schemas/T" := by decide
example : convert_ref_event ["T"] "./x.yaml#/components/schemas/T" =
    "#/components/schemas/T" := by decide
example : convert_ref_event ["T"] "x.yaml#/components/schemas/T" =
    "x.yaml#/components/schemas/T" := by decide

/-! ## Document-tree traversals

`convert_refs_to_local` and `fix_relative_paths_for_generated` share one
traversal shape: rewrite the string stored under a `$ref` key, then recurse
into every value (re-visiting the rewritten string is the identity, so the
net per-entry effect is a single rewrite).  `mapRefs f` is that shape with
the per-string rewrite `f` abstracted.  A `$ref` entry holding a non-string
value is recursed into unchanged (Python would raise `TypeError` there; no
script input has a non-string `$ref`). -/

mutual
def mapRefs (f : String → String) : Node → Node
  | .map kvs => .map (mapRefsKVs f kvs)
  | .arr xs => .arr (mapRefsArr f xs)
  | n => n
def mapRefsArr (f : String → String) : List Node → List Node
  | [] => []
  | x :: xs => mapRefs f x :: mapRefsArr f xs
def mapRefsKVs (f : String → String) : List (String × Node) → List (String × Node)
  | [] => []
  | (k, v) :: rest =>
    (k, if k = "$ref" then (match v with | .str s => .str (f s) | _ => mapRefs f v)
        else mapRefs f v) :: mapRefsKVs f rest
end

/-! All `$ref` string values of a tree, in traversal order: exactly the
strings `mapRefs` applies its rewrite to. -/
mutual
def refStrings : Node → List String
  | .map kvs => refStringsKVs kvs
  | .arr xs => refStringsArr xs
  | _ => []
def refStringsArr : List Node → List String
  | [] => []
  | x :: xs => refStrings x ++ refStringsArr xs
def refStringsKVs : List (String × Node) → List String
  | [] => []
  | (k, v) :: rest =>
    (if k = "$ref" then (match v with | .str s => [s] | _ => []) else []) ++
      refStrings v ++ refStringsKVs rest
end

/-! Embedding of `find_local_refs(obj)` (as called by both resolver pipelines,
with `source_file=None`): every `$ref` string matching the local pattern, in
traversal order.  Python accumulates a `set`; the embedding returns the
discovery list, and set semantics are recovered through membership /
`List.dedup` at the use sites. -/
mutual
def find_local_refs : Node → List String
  | .map kvs =>
    (match lookupKey "$ref" kvs with
     | some (.str s) => (match match_local_ref s with | some t => [t] | none => [])
     | _ => []) ++ find_local_refs_kvs kvs
  | .arr xs => find_local_refs_arr xs
  | _ => []
def find_local_refs_arr : List Node → List String
  | [] => []
  | x :: xs => find_local_refs x ++ find_local_refs_arr xs
def find_local_refs_kvs : List (String × Node) → List String
  | [] => []
  | (_, v) :: rest => find_local_refs v ++ find_local_refs_kvs rest
end

/-! Embedding of `find_cross_file_refs` (`resolve-event-refs.py`): every
`(file_path, type_name)` pair found by the cross-file pattern. -/
mutual
def find_cross_file_refs : Node → List (String × String)
  | .map kvs =>
    (match lookupKey "$ref" kvs with
     | some (.str s) => (match match_cross_event s with | some p => [p] | none => [])
     | _ => []) ++ find_cross_file_refs_kvs kvs
  | .arr xs => find_cross_file_refs_arr xs
  | _ => []
def find_cross_file_refs_arr : List Node → List (String × String)
  | [] => []
  | x :: xs => find_cross_file_refs x ++ find_cross_file_refs_arr xs
def find_cross_file_refs_kvs : List (String × Node) → List (String × String)
  | [] => []
  | (_, v) :: rest => find_cross_file_refs v ++ find_cross_file_refs_kvs rest
end

/-! Embedding of `find_allof_cross_file_refs` (`resolve-api-refs.py`):
cross-file `$ref`s sitting directly inside an `allOf` list.  The recursion
into all values afterwards can rediscover the same pairs; Python's `set`
absorbs the duplicates, and the embedding dedups at the use site. -/
mutual
def find_allof_cross_file_refs : Node → List (String × String)
  | .map kvs =>
    (match lookupKey "allOf" kvs with
     | some (.arr items) => allof_item_refs items
     | _ => []) ++ find_allof_refs_kvs kvs
  | .arr xs => find_allof_refs_arr xs
  | _ => []
def allof_item_refs : List Node → List (String × String)
  | [] => []
  | .map kvs :: rest =>
    (match lookupKey "$ref" kvs with
     | some (.str s) => (match match_cross_api s with | some p => [p] | none => [])
     | _ => []) ++ allof_item_refs rest
  | _ :: rest => allof_item_refs rest
def find_allof_refs_arr : List Node → List (String × String)
  | [] => []
  | x :: xs => find_allof_cross_file_refs x ++ find_allof_refs_arr xs
def find_allof_refs_kvs : List (String × Node) → List (String × String)
  | [] => []
  | (_, v) :: rest => find_allof_cross_file_refs v ++ find_allof_refs_kvs rest
end

/-- Tree-level `convert_refs_to_local(obj, inlined_types)` of
`resolve-event-refs.py`. -/
def convert_refs_to_local (inl : List String) (n : Node) : Node :=
  mapRefs (convert_ref_event inl) n

/-- Tree-level `convert_cross_refs_to_local(obj, inlined_types)` of
`resolve-api-refs.py`. -/
def convert_cross_refs_to_local (inl : List String) (n : Node) : Node :=
  mapRefs (convert_ref_api inl) n

/-- Tree-level `fix_relative_paths_for_generated(obj)` of
`resolve-event-refs.py`. -/
def fix_relative_paths_for_generated (n : Node) : Node :=
  mapRefs fix_ref n

/-- `has_nested_refs(type_def)`: the set of local refs is nonempty. -/
def has_nested_refs (d : Node) : Bool := ¬ (find_local_refs d).isEmpty

/-! ## Closure builder (`get_type_with_dependencies`)

Both resolver scripts collect a type and its transitive local dependencies
into an insertion-ordered dict.  The event version iterates the ref `set`
directly (Python hash order), the API version iterates `sorted(local_refs)`;
the embedding takes the iteration order as a parameter `O` (any enumeration
of the set of local refs of a definition).  Python recursion needs no fuel;
the embedding is total via a fuel argument, and every theorem below
instantiates the fuel above the number of schema entries, which the
fuel-sufficiency lemmas show is enough for the recursion never to be cut. -/

def get_type_with_dependencies (S : List (String × Node)) (O : Node → List String) :
    Nat → String → List (String × Node) → List (String × Node)
  | 0, _, collected => collected
  | fuel + 1, name, collected =>
    if hasKey collected name then collected
    else
      match lookupKey name S with
      | none => collected
      | some d =>
        (O d).foldl
          (fun acc r => if hasKey acc r then acc
                        else get_type_with_dependencies S O fuel r acc)
          (collected ++ [(name, d)])

/-- Iteration order of the event resolver: the discovery order of the
deduplicated local-ref set (standing in for Python's unspecified set order;
all content results are proved order-independent). -/
def evOrder (d : Node) : List String := (find_local_refs d).dedup

/-- Sorting used by `resolve-api-refs.py` (`sorted(...)` over strings). -/
def sortStrings (l : List String) : List String := List.insertionSort (· ≤ ·) l

/-- Iteration order of the API resolver: `sorted(local_refs)`. -/
def apiOrder (d : Node) : List String := sortStrings ((find_local_refs d).dedup)

/-! ## Shared pipeline pieces -/

/-- Python `dict.update`: existing keys are overwritten in place, new keys
appended — later entries win. -/
def dictUpdate (base new : List (String × Node)) : List (String × Node) :=
  new.foldl (fun acc p => mapInsert acc p.1 p.2) base

/-- View a node as a mapping (the scripts assume dict-shaped documents; a
non-mapping behaves as an empty dict here, where Python would raise). -/
def getMap : Node → List (String × Node)
  | .map kvs => kvs
  | _ => []

/-- `schema.get('components', {}).get('schemas', {})`. -/
def components_schemas (doc : Node) : List (String × Node) :=
  getMap ((lookupKey "schemas" (getMap ((lookupKey "components" (getMap doc)).getD (.map [])))).getD (.map []))

/-- Document-store lookup used by both resolvers: try the literal relative
path, then the path with leading `.`/`/` characters stripped
(`file_path.lstrip('../')` resp. `file_path.lstrip('./')` — the same
character set).  `fs` maps file names (relative to `schemas/`) to their
parsed trees; a missing file is `none` (`load_yaml` returns `None`). -/
def loadSource (fs : List (String × Node)) (f : String) : Option Node :=
  match lookupKey f fs with
  | some d => some d
  | none => lookupKey (String.mk (f.data.dropWhile (fun c => c = '.' ∨ c = '/'))) fs

/-- The two `if ... not in ...` guards that create `components`/`schemas`
before inlined definitions are inserted (append at the end, dict order). -/
def ensure_components_schemas (doc : List (String × Node)) : List (String × Node) :=
  let d1 := if hasKey doc "components" then doc else doc ++ [("components", .map [])]
  let comps := getMap ((lookupKey "components" d1).getD (.map []))
  let comps1 := if hasKey comps "schemas" then comps else comps ++ [("schemas", .map [])]
  mapInsert d1 "components" (.map comps1)

/-- `resolved['components']['schemas'][type_name] = type_def` (in-place nested
dict assignment). -/
def insertSchemaDef (doc : List (String × Node)) (t : String) (d : Node) : List (String × Node) :=
  let comps := getMap ((lookupKey "components" doc).getD (.map []))
  let schemas := getMap ((lookupKey "schemas" comps).getD (.map []))
  mapInsert doc "components" (.map (mapInsert comps "schemas" (.map (mapInsert schemas t d))))

/-! ## Event resolver pipeline (`resolve-event-refs.py`) -/

/-- Result of one `resolve_event_schema` run: the optional output document
(`None` means no file is written) plus the warnings printed on the way. -/
structure EvResult where
  out : Option Node
  warnings : List String

/-- The description banner prepended by `resolve_event_schema` when the
document has `info.description`. -/
def update_description (srcName : String) (n : Node) : Node :=
  match n with
  | .map kvs =>
    (match lookupKey "info" kvs with
     | some (.map ikvs) =>
       (match lookupKey "description" ikvs with
        | some (.str orig) =>
          let banner :=
            "AUTO-RESOLVED: Complex cross-file refs have been inlined for NSwag compatibility.\n" ++
            "DO NOT EDIT - Regenerate with scripts/resolve-event-refs.py\n" ++
            "Source: " ++ srcName ++ "\n\n" ++ orig
          .map (mapInsert kvs "info" (.map (mapInsert ikvs "description" (.str banner))))
        | _ => n)
     | _ => n)
  | _ => n

/-- Assembly step of `resolve_event_schema`: ensure `components/schemas`,
insert each inlined definition (itself converted), convert the whole
document, fix relative paths for the `Generated/` location, and update the
description. -/
def assemble_event (evDoc : List (String × Node)) (inlined : List (String × Node))
    (srcName : String) : Node :=
  let names := inlined.map Prod.fst
  let base := ensure_components_schemas evDoc
  let withDefs := inlined.foldl
    (fun acc p => insertSchemaDef acc p.1 (convert_refs_to_local names p.2)) base
  let conv := convert_refs_to_local names (.map withDefs)
  let fixed := fix_relative_paths_for_generated conv
  update_description srcName fixed

/-- Embedding of `resolve_event_schema(events_path, schema_dir)`.  `fs` is the
document store (all loadable YAML files), `evDoc` the parsed event schema,
`srcName` the file name used in the banner.  Python iterates hash-ordered
sets when grouping refs by file; the embedding uses first-discovery order
(the membership-level results are order-independent, and C7 treats the one
place where order is observable). -/
def ev_collect_types (schemas : List (String × Node)) (types : List String)
    (acc : List (String × Node)) : List (String × Node) :=
  types.foldl (fun ti t =>
    match lookupKey t schemas with
    | none => ti
    | some d =>
      if has_nested_refs d then
        dictUpdate ti (get_type_with_dependencies schemas evOrder (schemas.length + 1) t [])
      else ti) acc

/-- The body of the `for file_path, type_names in refs_by_file.items()` loop:
a file that fails to load prints a warning and is skipped; otherwise the
complex types referenced from it are collected with their dependencies. -/
def ev_step (fs : List (String × Node)) (cross : List (String × String))
    (acc : List (String × Node) × List String) (f : String) :
    List (String × Node) × List String :=
  match loadSource fs f with
  | none => (acc.1, acc.2 ++ ["Warning: Could not load " ++ f])
  | some src =>
    (ev_collect_types (components_schemas src)
      (((cross.filter (fun p => p.1 = f)).map Prod.snd).dedup) acc.1, acc.2)

def ev_finish (evDoc : Node) (srcName : String)
    (res : List (String × Node) × List String) : EvResult :=
  if res.1.isEmpty then ⟨none, res.2⟩
  else ⟨some (assemble_event (getMap evDoc) res.1 srcName), res.2⟩

def resolve_event_schema (fs : List (String × Node)) (evDoc : Node) (srcName : String) :
    EvResult :=
  if ((find_cross_file_refs evDoc).dedup).isEmpty then ⟨none, []⟩
  else
    ev_finish evDoc srcName
      ((((find_cross_file_refs evDoc).dedup).map Prod.fst).dedup.foldl
        (ev_step fs ((find_cross_file_refs evDoc).dedup)) ([], []))

/-! ## API resolver pipeline (`resolve-api-refs.py`) -/

/-- `sorted(types_to_inline.items())`: keys are distinct, so Python's tuple
order never reaches the (incomparable) values. -/
def sortByKey (l : List (String × Node)) : List (String × Node) :=
  List.insertionSort (fun a b => a.1 ≤ b.1) l

/-- Embedding of `resolve_api_schema(api_path, schema_dir)`: `None` exactly
when no cross-file `allOf` ref exists or nothing could be inlined; otherwise
the resolved document (which `main` then writes to
`schemas/Generated/{service}-api-resolved.yaml`). -/
def resolve_api_schema (fs : List (String × Node)) (apiDoc : Node) : Option Node :=
  let allofRefs := (find_allof_cross_file_refs apiDoc).dedup
  if allofRefs.isEmpty then none
  else
    let files := (allofRefs.map Prod.fst).dedup
    let ti := files.foldl (fun acc f =>
      match loadSource fs f with
      | none => acc
      | some src =>
        let schemas := components_schemas src
        let types := ((allofRefs.filter (fun p => p.1 = f)).map Prod.snd).dedup
        types.foldl (fun acc2 t =>
          match lookupKey t schemas with
          | none => acc2
          | some _ =>
            dictUpdate acc2 (get_type_with_dependencies schemas apiOrder (schemas.length + 1) t []))
          acc) []
    if ti.isEmpty then none
    else
      let names := ti.map Prod.fst
      let base := ensure_components_schemas (getMap apiDoc)
      let withDefs := (sortByKey ti).foldl (fun acc p => insertSchemaDef acc p.1 p.2) base
      let conv := convert_cross_refs_to_local names (.map withDefs)
      some (.map (mapInsert (getMap conv) "x-inlined-types" (.arr ((sortStrings names).map .str))))

/-! ## Client-schema merge (`generate-client-schema.py`, `main`) -/

/-- The per-service schema collection loop of `generate-client-schema.py`:
`if schema_name not in all_schemas: all_schemas[schema_name] = schema_def`
("If duplicate, prefer the first one encountered"). -/
def merge_service_schemas (all new : List (String × Node)) : List (String × Node) :=
  new.foldl (fun acc p => if hasKey acc p.1 then acc else acc ++ [p]) all

/-! ## Meta-schema embedder (`embed-meta-schemas.py`) -/

/-- Pointer walk shared by the `resolve_ref` implementations: follow mapping
keys; a missing key or non-mapping intermediate yields `none`. -/
def navigate : Node → List String → Option Node
  | n, [] => some n
  | .map kvs, p :: ps =>
    (match lookupKey p kvs with
     | some v => navigate v ps
     | none => none)
  | _, _ :: _ => none

/-- Kernel-computable embedding of Python's single-character `str.split`. -/
def splitOnChar (sep : Char) : List Char → List String
  | [] => [""]
  | c :: rest =>
    match splitOnChar sep rest with
    | [] => [""]
    | s :: ss => if c = sep then "" :: s :: ss else String.mk (c :: s.data) :: ss

/-- Kernel-computable embedding of `str.split('#/')`. -/
def splitHashSlash : List Char → List String
  | [] => [""]
  | '#' :: '/' :: rest => "" :: splitHashSlash rest
  | c :: rest =>
    match splitHashSlash rest with
    | [] => [""]
    | s :: ss => String.mk (c :: s.data) :: ss

/-- Embedding of `resolve_ref` in `embed-meta-schemas.py`: non-local and
unresolvable refs yield the generic opaque-object placeholder
`{'type': 'object'}`. -/
def resolve_ref_meta (ref : String) (schema : Node) : Node :=
  if listStartsWith (("#/").data) ref.data then
    match navigate schema (splitOnChar '/' (ref.data.drop 2)) with
    | some n => n
    | none => .map [("type", .str "object")]
  else .map [("type", .str "object")]

/-! ## Resource-template traversal (`generate-resource-templates.py`) -/

/-- Embedding of `resolve_ref` in `generate-resource-templates.py`: local
`#/` refs navigate the current file, `./file#/path` refs navigate a loaded
sibling, anything else resolves to `None`. -/
def resolve_ref_templates (ref : String) (cur : Node) (allS : List (String × Node)) :
    Option Node :=
  if listStartsWith (("#/").data) ref.data then
    navigate cur (splitOnChar '/' (ref.data.drop 2))
  else if listStartsWith (("./").data) ref.data then
    if (splitHashSlash ref.data).length = 2 then
      match lookupKey (String.mk (((splitHashSlash ref.data).getD 0 "").data.drop 2)) allS with
      | none => none
      | some doc => navigate doc (splitOnChar '/' (((splitHashSlash ref.data).getD 1 "").data))
    else none
  else none

/-- C# value types that receive a `?` suffix when nullable. -/
def valueTypes : List String := ["int", "long", "float", "double", "bool", "Guid", "DateTimeOffset"]

/-- Embedding of `openapi_type_to_csharp(prop_schema, type_name, all_schemas)`.
The only non-structural recursion in the source is the `nullable` unwrapping
(a dict comprehension dropping the key), so the embedding carries fuel; the
uses below always supply enough.  A non-string `$ref` value is treated as
absent (Python would raise there). -/
def openapi_type_to_csharp : Nat → Node → Option String → String
  | _, _, some t => t
  | 0, _, none => "object"
  | fuel + 1, prop, none =>
    match prop with
    | .map kvs =>
      (match lookupKey "$ref" kvs with
       | some (.str ref) => (splitOnChar '/' ref.data).getLastD ""
       | _ =>
         if (lookupKey "nullable" kvs).elim false truthy then
           let base := openapi_type_to_csharp fuel
             (.map (kvs.filter (fun p => p.1 ≠ "nullable"))) none
           if base ∈ valueTypes then base ++ "?" else base
         else
           let ty := match lookupKey "type" kvs with
             | some (.str t) => t
             | none => "object"
             | some _ => ""
           let fmt : Option String := match lookupKey "format" kvs with
             | some (.str t) => some t
             | _ => none
           if ty = "string" then
             if fmt = some "uuid" then "Guid"
             else if fmt = some "date-time" then "DateTimeOffset"
             else if fmt = some "date" then "DateOnly"
             else if fmt = some "time" then "TimeOnly"
             else if fmt = some "uri" then "Uri"
             else if fmt = some "byte" then "byte[]"
             else "string"
           else if ty = "integer" then (if fmt = some "int64" then "long" else "int")
           else if ty = "number" then (if fmt = some "double" then "double" else "float")
           else if ty = "boolean" then "bool"
           else if ty = "array" then
             "ICollection<" ++
               openapi_type_to_csharp fuel ((lookupKey "items" kvs).getD (.map [])) none ++ ">"
           else if ty = "object" then
             (match lookupKey "additionalProperties" kvs with
              | some (.bool _) => "IDictionary<string, object>"
              | some v => "IDictionary<string, " ++ openapi_type_to_csharp fuel v none ++ ">"
              | none => "object")
           else "object")
    | _ => "object"

/-- `x.get('type') == 'object'` on a mapping. -/
def type_is_object (kvs : List (String × Node)) : Bool :=
  match lookupKey "type" kvs with
  | some (.str t) => t = "object"
  | _ => false

/-- `paths[prop_path] = csharp_type` over the ValidPaths dictionary. -/
def sInsert (l : List (String × String)) (k v : String) : List (String × String) :=
  match l with
  | [] => [(k, v)]
  | (a, w) :: rest => if a = k then (a, v) :: rest else (a, w) :: sInsert rest k v

/-- Embedding of `traverse_schema` (`generate-resource-templates.py`).  State
is passed functionally: the Python version mutates `paths` in place and
returns `None`; here the updated dictionary is returned.  The `visited` set
is a list used only through membership.  The depth guard `if depth > 10:
return` is checked first, exactly as in the source; the extra fuel argument
only makes the embedding total and is always instantiated large enough. -/
def traverse_schema (cur : Node) (allS : List (String × Node)) :
    Nat → Node → String → List (String × String) → List String → Nat →
    List (String × String)
  | 0, _, _, paths, _, _ => paths
  | fuel + 1, schema, path, paths, visited, depth =>
    if depth > 10 then paths
    else match schema with
    | .map kvs =>
      (match lookupKey "$ref" kvs with
       | some (.str ref) =>
         if ref ∈ visited then paths
         else
           (match resolve_ref_templates ref cur allS with
            | some res =>
              if truthy res then
                traverse_schema cur allS fuel res path paths (visited ++ [ref]) depth
              else paths
            | none => paths)
       | _ =>
         (match lookupKey "allOf" kvs with
          | some (.arr subs) =>
            subs.foldl (fun p sub => traverse_schema cur allS fuel sub path p visited depth) paths
          | _ =>
            let props := getMap ((lookupKey "properties" kvs).getD (.map []))
            props.foldl (fun p q =>
              let ppath := if path = "" then q.1 else path ++ "." ++ q.1
              let p1 := sInsert p ppath (openapi_type_to_csharp 1000 q.2 none)
              match q.2 with
              | .map pkvs =>
                (match lookupKey "$ref" pkvs with
                 | some (.str r) =>
                   if r ∈ visited then p1
                   else
                     (match resolve_ref_templates r cur allS with
                      | some res =>
                        if truthy res ∧
                            (type_is_object (getMap res) ∨
                             hasKey (getMap res) "properties" ∨
                             hasKey (getMap res) "allOf") then
                          traverse_schema cur allS fuel res ppath p1 (visited ++ [r]) (depth + 1)
                        else p1
                      | none => p1)
                 | _ =>
                   if type_is_object pkvs ∧ hasKey pkvs "properties" then
                     traverse_schema cur allS fuel q.2 ppath p1 visited (depth + 1)
                   else p1)
              | _ => p1) paths)
       )
    | _ => paths

/-! ## Correctness of the closure builder

`Reaches S root t` is transitive reachability through the local-ref graph of
one `components/schemas` mapping `S`: exactly the "types transitively
reachable from the root via references" of the spec, stepping only through
types that are actually defined in `S`. -/

inductive Reaches (S : List (String × Node)) (root : String) : String → Prop
  | refl : Reaches S root root
  | step {u t : String} {d : Node} : Reaches S root u → lookupKey u S = some d →
      t ∈ find_local_refs d → Reaches S root t

theorem Reaches_trans {S : List (String × Node)} {a b c : String}
    (h1 : Reaches S a b) (h2 : Reaches S b c) : Reaches S a c := by
  induction h2 with
  | refl => exact h1
  | step _ hl hm ih => exact Reaches.step ih hl hm

theorem lookupKey_isSome_iff {k : String} :
    ∀ {l : List (String × Node)}, (lookupKey k l).isSome = true ↔ k ∈ keysOf l := by
  intro l
  induction l with
  | nil => simp [lookupKey, keysOf]
  | cons p rest ih =>
    by_cases h : p.1 = k
    · simp [lookupKey, keysOf, ← h]
    · simpa [lookupKey, keysOf, h, Ne.symm h] using ih

theorem lookupKey_append {k : String} (a b : List (String × Node)) :
    lookupKey k (a ++ b) = (lookupKey k a).orElse (fun _ => lookupKey k b) := by
  induction a with
  | nil => simp [lookupKey]
  | cons p rest ih =>
    by_cases h : p.1 = k
    · simp [lookupKey, h]
    · simp [lookupKey, h, ih]

theorem lookupKey_mem {k : String} {v : Node} :
    ∀ {l : List (String × Node)}, lookupKey k l = some v → (k, v) ∈ l := by
  intro l
  induction l with
  | nil => simp [lookupKey]
  | cons p rest ih =>
    by_cases h : p.1 = k
    · cases p with
      | mk a w =>
        simp only [lookupKey]
        simp only at h
        subst h
        intro hv
        simp at hv
        simp [hv]
    · cases p with
      | mk a w =>
        simp only at h
        simp only [lookupKey, if_neg h]
        intro hv
        exact List.mem_cons_of_mem _ (ih hv)

theorem hasKey_append_left {k : String} {a : List (String × Node)}
    (b : List (String × Node)) (h : hasKey a k = true) : hasKey (a ++ b) k = true := by
  simp only [hasKey, lookupKey_append]
  simp only [hasKey] at h
  cases hl : lookupKey k a with
  | none => rw [hl] at h; simp at h
  | some v => simp [hl, Option.orElse]

/-- Keys already collected, as a finite set. -/
def keyFinset (l : List (String × Node)) : Finset String := (keysOf l).toFinset

/-- Number of schema entries not yet collected: the implicit termination
measure of the Python recursion, used below to show that the fuel supplied
by the pipelines is never exhausted. -/
def deficit (S c : List (String × Node)) : Nat := (keyFinset S \ keyFinset c).card

theorem keyFinset_append_subset (c t : List (String × Node)) :
    keyFinset c ⊆ keyFinset (c ++ t) := by
  intro x hx
  simp only [keyFinset, List.mem_toFinset, keysOf, List.map_append, List.mem_append] at hx ⊢
  exact Or.inl hx

theorem deficit_append_le (S c t : List (String × Node)) :
    deficit S (c ++ t) ≤ deficit S c :=
  Finset.card_le_card
    (Finset.sdiff_subset_sdiff (Finset.Subset.refl _) (keyFinset_append_subset c t))

theorem deficit_insert_lt {S c : List (String × Node)} {n : String} {d : Node}
    (h1 : (lookupKey n S).isSome = true) (h2 : hasKey c n = false) :
    deficit S (c ++ [(n, d)]) < deficit S c := by
  have hnS : n ∈ keysOf S := lookupKey_isSome_iff.mp h1
  have hnC : n ∉ keysOf c := by
    intro hmem
    have := lookupKey_isSome_iff.mpr hmem
    simp only [hasKey] at h2
    rw [h2] at this
    simp at this
  have hset : keyFinset (c ++ [(n, d)]) = insert n (keyFinset c) := by
    simp only [keyFinset, keysOf]
    ext x
    simp [List.mem_toFinset, or_comm]
  have hsub : keyFinset S \ insert n (keyFinset c) = (keyFinset S \ keyFinset c).erase n := by
    ext x
    simp only [Finset.mem_sdiff, Finset.mem_insert, Finset.mem_erase]
    tauto
  simp only [deficit]
  rw [hset, hsub]
  apply Finset.card_erase_lt_of_mem
  simp only [Finset.mem_sdiff, keyFinset, List.mem_toFinset]
  exact ⟨hnS, hnC⟩

/-- One step of the dependency fold inside `get_type_with_dependencies`:
`if ref_name not in collected: get_type_with_dependencies(ref_name, ...)`. -/
def collectStep (S : List (String × Node)) (O : Node → List String) (fuel : Nat)
    (acc : List (String × Node)) (r : String) : List (String × Node) :=
  if hasKey acc r then acc else get_type_with_dependencies S O fuel r acc

theorem collect_zero (S : List (String × Node)) (O : Node → List String)
    (n : String) (c : List (String × Node)) :
    get_type_with_dependencies S O 0 n c = c := rfl

theorem collect_succ_mem (S : List (String × Node)) (O : Node → List String)
    {fuel : Nat} {n : String} {c : List (String × Node)} (h : hasKey c n = true) :
    get_type_with_dependencies S O (fuel + 1) n c = c := by
  simp [get_type_with_dependencies, h]

theorem collect_succ_none (S : List (String × Node)) (O : Node → List String)
    {fuel : Nat} {n : String} {c : List (String × Node)} (h1 : hasKey c n = false)
    (h2 : lookupKey n S = none) :
    get_type_with_dependencies S O (fuel + 1) n c = c := by
  simp [get_type_with_dependencies, h1, h2]

theorem collect_succ_some (S : List (String × Node)) (O : Node → List String)
    {fuel : Nat} {n : String} {c : List (String × Node)} {d : Node}
    (h1 : hasKey c n = false) (h2 : lookupKey n S = some d) :
    get_type_with_dependencies S O (fuel + 1) n c =
      (O d).foldl (collectStep S O fuel) (c ++ [(n, d)]) := by
  simp only [get_type_with_dependencies, h1, Bool.false_eq_true, if_false, h2]
  rfl

/-- Joint extension/provenance/soundness/nodup invariant of the collector:
the result extends the accumulator by entries whose definitions come from
`S` and whose keys are reachable from the argument, and key-nodup is
preserved. -/
theorem collect_extends (S : List (String × Node)) (O : Node → List String)
    (hO : ∀ (d : Node) (r : String), r ∈ O d ↔ r ∈ find_local_refs d) :
    ∀ fuel : Nat,
      (∀ (n : String) (c : List (String × Node)),
        ∃ t, get_type_with_dependencies S O fuel n c = c ++ t ∧
          (∀ p ∈ t, lookupKey p.1 S = some p.2 ∧ Reaches S n p.1) ∧
          ((keysOf c).Nodup → (keysOf (c ++ t)).Nodup)) ∧
      (∀ (rs : List String) (c : List (String × Node)),
        ∃ t, rs.foldl (collectStep S O fuel) c = c ++ t ∧
          (∀ p ∈ t, lookupKey p.1 S = some p.2 ∧ ∃ r ∈ rs, Reaches S r p.1) ∧
          ((keysOf c).Nodup → (keysOf (c ++ t)).Nodup)) := by
  intro fuel
  induction fuel with
  | zero =>
    have hgo : ∀ (n : String) (c : List (String × Node)),
        ∃ t, get_type_with_dependencies S O 0 n c = c ++ t ∧
          (∀ p ∈ t, lookupKey p.1 S = some p.2 ∧ Reaches S n p.1) ∧
          ((keysOf c).Nodup → (keysOf (c ++ t)).Nodup) := by
      intro n c
      exact ⟨[], by simp [collect_zero], by simp, by simp⟩
    refine ⟨hgo, ?_⟩
    intro rs
    induction rs with
    | nil => intro c; exact ⟨[], by simp, by simp, by simp⟩
    | cons r rs ih =>
      intro c
      obtain ⟨t1, he1, hp1, hn1⟩ := hgo r c
      have hc1 : collectStep S O 0 c r = c := by
        by_cases h : hasKey c r
        · simp [collectStep, h]
        · simp [collectStep, h, collect_zero]
      obtain ⟨t2, he2, hp2, hn2⟩ := ih c
      refine ⟨t2, ?_, ?_, hn2⟩
      · simp [List.foldl_cons, hc1, he2]
      · intro p hp
        obtain ⟨hs, r', hr', hre⟩ := hp2 p hp
        exact ⟨hs, r', List.mem_cons_of_mem _ hr', hre⟩
  | succ f ihf =>
    have hgo : ∀ (n : String) (c : List (String × Node)),
        ∃ t, get_type_with_dependencies S O (f + 1) n c = c ++ t ∧
          (∀ p ∈ t, lookupKey p.1 S = some p.2 ∧ Reaches S n p.1) ∧
          ((keysOf c).Nodup → (keysOf (c ++ t)).Nodup) := by
      intro n c
      by_cases h1 : hasKey c n
      · exact ⟨[], by simp [collect_succ_mem S O h1], by simp, by simp⟩
      · have h1f : hasKey c n = false := by simpa using h1
        cases h2 : lookupKey n S with
        | none => exact ⟨[], by simp [collect_succ_none S O h1f h2], by simp, by simp⟩
        | some d =>
          obtain ⟨t', he', hp', hn'⟩ := ihf.2 (O d) (c ++ [(n, d)])
          refine ⟨(n, d) :: t', ?_, ?_, ?_⟩
          · rw [collect_succ_some S O h1f h2, he', List.append_assoc]
            rfl
          · intro p hp
            rcases List.mem_cons.mp hp with hp | hp
            · subst hp
              exact ⟨h2, Reaches.refl⟩
            · obtain ⟨hs, r, hr, hre⟩ := hp' p hp
              refine ⟨hs, ?_⟩
              exact Reaches_trans (Reaches.step Reaches.refl h2 ((hO d r).mp hr)) hre
          · intro hnod
            have hnotin : n ∉ keysOf c := by
              intro hmem
              have := lookupKey_isSome_iff.mpr hmem
              simp only [hasKey] at h1f
              rw [h1f] at this
              simp at this
            have hnod' : (keysOf (c ++ [(n, d)])).Nodup := by
              simp only [keysOf] at hnod hnotin ⊢
              simp [List.nodup_append, hnod, hnotin]
            have := hn' hnod'
            simpa [keysOf, List.append_assoc] using this
    refine ⟨hgo, ?_⟩
    intro rs
    induction rs with
    | nil => intro c; exact ⟨[], by simp, by simp, by simp⟩
    | cons r rs ih =>
      intro c
      by_cases h : hasKey c r
      · obtain ⟨t2, he2, hp2, hn2⟩ := ih c
        refine ⟨t2, ?_, ?_, hn2⟩
        · simp [List.foldl_cons, collectStep, h, he2]
        · intro p hp
          obtain ⟨hs, r', hr', hre⟩ := hp2 p hp
          exact ⟨hs, r', List.mem_cons_of_mem _ hr', hre⟩
      · have hf : hasKey c r = false := by simpa using h
        obtain ⟨t1, he1, hp1, hn1⟩ := hgo r c
        obtain ⟨t2, he2, hp2, hn2⟩ := ih (c ++ t1)
        refine ⟨t1 ++ t2, ?_, ?_, ?_⟩
        · have : collectStep S O (f + 1) c r = c ++ t1 := by
            simp [collectStep, hf, he1]
          simp [List.foldl_cons, this, he2, List.append_assoc]
        · intro p hp
          rcases List.mem_append.mp hp with hp | hp
          · obtain ⟨hs, hre⟩ := hp1 p hp
            exact ⟨hs, r, List.mem_cons_self _ _, hre⟩
          · obtain ⟨hs, r', hr', hre⟩ := hp2 p hp
            exact ⟨hs, r', List.mem_cons_of_mem _ hr', hre⟩
        · intro hnod
          have := hn2 (hn1 hnod)
          simpa [List.append_assoc] using this

/-- A collected mapping is closed except for a pending list of names: every
local ref of every collected definition that is defined in `S` is either
already collected or still pending. -/
def ClosedExcept (S c : List (String × Node)) (T : List String) : Prop :=
  ∀ p ∈ c, ∀ r ∈ find_local_refs p.2, (lookupKey r S).isSome = true →
    (hasKey c r = true ∨ r ∈ T)

/-- Completeness invariant: with enough fuel the collector discharges the
pending name (collecting it if it is defined) and preserves closedness. -/
theorem collect_closed (S : List (String × Node)) (O : Node → List String)
    (hO : ∀ (d : Node) (r : String), r ∈ O d ↔ r ∈ find_local_refs d) :
    ∀ fuel : Nat,
      (∀ (n : String) (c : List (String × Node)) (T : List String),
        deficit S c < fuel → ClosedExcept S c (n :: T) →
        ClosedExcept S (get_type_with_dependencies S O fuel n c) T ∧
          ((lookupKey n S).isSome = true →
            hasKey (get_type_with_dependencies S O fuel n c) n = true)) ∧
      (∀ (rs : List String) (c : List (String × Node)) (T : List String),
        deficit S c < fuel → ClosedExcept S c (rs ++ T) →
        ClosedExcept S (rs.foldl (collectStep S O fuel) c) T) := by
  intro fuel
  induction fuel with
  | zero =>
    constructor
    · intro n c T hdef
      exact absurd hdef (by omega)
    · intro rs c T hdef
      exact absurd hdef (by omega)
  | succ f ihf =>
    have hgo : ∀ (n : String) (c : List (String × Node)) (T : List String),
        deficit S c < f + 1 → ClosedExcept S c (n :: T) →
        ClosedExcept S (get_type_with_dependencies S O (f + 1) n c) T ∧
          ((lookupKey n S).isSome = true →
            hasKey (get_type_with_dependencies S O (f + 1) n c) n = true) := by
      intro n c T hdef hCl
      by_cases h1 : hasKey c n
      · rw [collect_succ_mem S O h1]
        refine ⟨?_, fun _ => h1⟩
        intro p hp r hr hs
        rcases hCl p hp r hr hs with hk | hT
        · exact Or.inl hk
        · rcases List.mem_cons.mp hT with he | hT
          · subst he; exact Or.inl h1
          · exact Or.inr hT
      · have h1f : hasKey c n = false := by simpa using h1
        cases h2 : lookupKey n S with
        | none =>
          rw [collect_succ_none S O h1f h2]
          constructor
          · intro p hp r hr hs
            rcases hCl p hp r hr hs with hk | hT
            · exact Or.inl hk
            · rcases List.mem_cons.mp hT with he | hT
              · subst he; rw [h2] at hs; simp at hs
              · exact Or.inr hT
          · intro hs; simp at hs
        | some d =>
          rw [collect_succ_some S O h1f h2]
          have hkc' : hasKey (c ++ [(n, d)]) n = true := by
            have hnone : lookupKey n c = none := by
              have h := h1f
              simp only [hasKey] at h
              exact Option.not_isSome_iff_eq_none.mp (by simp [h])
            have hla : lookupKey n (c ++ [(n, d)]) = some d := by
              rw [lookupKey_append, hnone]
              simp [lookupKey]
            simp [hasKey, hla]
          have hC' : ClosedExcept S (c ++ [(n, d)]) (O d ++ T) := by
            intro p hp r hr hs
            rcases List.mem_append.mp hp with hp | hp
            · rcases hCl p hp r hr hs with hk | hT
              · exact Or.inl (hasKey_append_left _ hk)
              · rcases List.mem_cons.mp hT with he | hT
                · subst he; exact Or.inl hkc'
                · exact Or.inr (List.mem_append_right _ hT)
            · have hpe : p = (n, d) := by simpa using hp
              subst hpe
              exact Or.inr (List.mem_append_left _ ((hO d r).mpr hr))
          have hdef' : deficit S (c ++ [(n, d)]) < f := by
            have := deficit_insert_lt (S := S) (c := c) (d := d) (by simp [h2]) h1f
            omega
          have hfold := ihf.2 (O d) (c ++ [(n, d)]) T hdef' hC'
          refine ⟨hfold, fun _ => ?_⟩
          obtain ⟨t, he, -, -⟩ := (collect_extends S O hO f).2 (O d) (c ++ [(n, d)])
          rw [he]
          exact hasKey_append_left _ hkc'
    refine ⟨hgo, ?_⟩
    intro rs
    induction rs with
    | nil =>
      intro c T hdef hCl
      simpa using hCl
    | cons r rs ih =>
      intro c T hdef hCl
      rw [List.cons_append] at hCl
      by_cases hk : hasKey c r
      · have hCl' : ClosedExcept S c (rs ++ T) := by
          intro p hp r' hr' hs
          rcases hCl p hp r' hr' hs with h | hT
          · exact Or.inl h
          · rcases List.mem_cons.mp hT with he | hT
            · subst he; exact Or.inl hk
            · exact Or.inr hT
        have hstep : collectStep S O (f + 1) c r = c := by simp [collectStep, hk]
        rw [List.foldl_cons, hstep]
        exact ih c T hdef hCl'
      · have hkf : hasKey c r = false := by simpa using hk
        have hstep : collectStep S O (f + 1) c r =
            get_type_with_dependencies S O (f + 1) r c := by simp [collectStep, hkf]
        rw [List.foldl_cons, hstep]
        have hgor := hgo r c (rs ++ T) hdef hCl
        obtain ⟨t, he, -, -⟩ := (collect_extends S O hO (f + 1)).1 r c
        have hdef2 : deficit S (get_type_with_dependencies S O (f + 1) r c) < f + 1 := by
          rw [he]
          have := deficit_append_le S c t
          omega
        exact ih _ T hdef2 hgor.1

/-- Full characterization of `get_type_with_dependencies` started from an
empty accumulator with enough fuel: the collected keys are exactly the types
reachable from the root that are defined in `S`, each collected exactly once
(keys nodup) with its definition from `S`, for any enumeration order of the
local-ref sets. -/
theorem collect_characterization (S : List (String × Node)) (O : Node → List String)
    (hO : ∀ (d : Node) (r : String), r ∈ O d ↔ r ∈ find_local_refs d)
    (fuel : Nat) (root : String) (hfuel : (keyFinset S).card < fuel) :
    (∀ t, hasKey (get_type_with_dependencies S O fuel root []) t = true ↔
      (Reaches S root t ∧ (lookupKey t S).isSome = true)) ∧
    (keysOf (get_type_with_dependencies S O fuel root [])).Nodup ∧
    (∀ p ∈ get_type_with_dependencies S O fuel root [], lookupKey p.1 S = some p.2) := by
  obtain ⟨t, he, hprop, hnod⟩ := (collect_extends S O hO fuel).1 root []
  have hres : get_type_with_dependencies S O fuel root [] = t := by simpa using he
  have hdef0 : deficit S [] < fuel := by
    have : keyFinset ([] : List (String × Node)) = ∅ := by simp [keyFinset, keysOf]
    simpa [deficit, this] using hfuel
  have hcl0 : ClosedExcept S [] (root :: []) := by
    intro p hp
    simp at hp
  obtain ⟨hclosed, hroot⟩ := (collect_closed S O hO fuel).1 root [] [] hdef0 hcl0
  have hmem : ∀ q, hasKey (get_type_with_dependencies S O fuel root []) q = true →
      ∃ v, (q, v) ∈ get_type_with_dependencies S O fuel root [] ∧
        lookupKey q (get_type_with_dependencies S O fuel root []) = some v := by
    intro q hq
    simp only [hasKey] at hq
    cases hl : lookupKey q (get_type_with_dependencies S O fuel root []) with
    | none => rw [hl] at hq; simp at hq
    | some v => exact ⟨v, lookupKey_mem hl, rfl⟩
  refine ⟨?_, ?_, ?_⟩
  · intro q
    constructor
    · intro hq
      obtain ⟨v, hv, -⟩ := hmem q hq
      rw [hres] at hv
      obtain ⟨hlv, hre⟩ := hprop _ hv
      exact ⟨hre, by simp [hlv]⟩
    · rintro ⟨hre, hs⟩
      induction hre with
      | refl => exact hroot hs
      | step hr hl hm ih =>
        rename_i u q d
        have hu : hasKey (get_type_with_dependencies S O fuel root []) u = true :=
          ih (by simp [hl])
        obtain ⟨v, hv, -⟩ := hmem u hu
        have hvd : v = d := by
          have := (hprop _ (hres ▸ hv)).1
          rw [hl] at this
          exact (Option.some_inj.mp this).symm
        subst hvd
        rcases hclosed _ hv _ hm hs with hk | habs
        · exact hk
        · simp at habs
  · simpa [hres] using hnod (by simp [keysOf])
  · intro p hp
    exact (hprop p (hres ▸ hp)).1

/-- Order-independence of the collected key set: any two valid enumeration
orders (with any sufficient fuel) produce the same set of collected types. -/
theorem collect_order_independent (S : List (String × Node))
    (O1 O2 : Node → List String)
    (hO1 : ∀ (d : Node) (r : String), r ∈ O1 d ↔ r ∈ find_local_refs d)
    (hO2 : ∀ (d : Node) (r : String), r ∈ O2 d ↔ r ∈ find_local_refs d)
    (fuel1 fuel2 : Nat) (hf1 : (keyFinset S).card < fuel1)
    (hf2 : (keyFinset S).card < fuel2) (root : String) :
    (keysOf (get_type_with_dependencies S O1 fuel1 root [])).toFinset =
      (keysOf (get_type_with_dependencies S O2 fuel2 root [])).toFinset := by
  ext x
  have h1 := (collect_characterization S O1 hO1 fuel1 root hf1).1 x
  have h2 := (collect_characterization S O2 hO2 fuel2 root hf2).1 x
  simp only [List.mem_toFinset]
  constructor
  · intro hx
    have : hasKey (get_type_with_dependencies S O1 fuel1 root []) x = true := by
      simp only [hasKey]
      simp [lookupKey_isSome_iff.mpr hx]
    have := h2.mpr (h1.mp this)
    simp only [hasKey] at this
    exact lookupKey_isSome_iff.mp this
  · intro hx
    have : hasKey (get_type_with_dependencies S O2 fuel2 root []) x = true := by
      simp only [hasKey]
      simp [lookupKey_isSome_iff.mpr hx]
    have := h1.mpr (h2.mp this)
    simp only [hasKey] at this
    exact lookupKey_isSome_iff.mp this

/-- The canonical enumeration orders are valid: first-discovery order
(event resolver). -/
theorem evOrder_valid : ∀ (d : Node) (r : String), r ∈ evOrder d ↔ r ∈ find_local_refs d := by
  intro d r
  simp [evOrder, List.mem_dedup]

/-- The canonical enumeration orders are valid: sorted order (API resolver,
`sorted(local_refs)`). -/
theorem apiOrder_valid : ∀ (d : Node) (r : String), r ∈ apiOrder d ↔ r ∈ find_local_refs d := by
  intro d r
  have hperm := List.perm_insertionSort (α := String) (· ≤ ·) ((find_local_refs d).dedup)
  constructor
  · intro h
    exact List.mem_dedup.mp (hperm.mem_iff.mp h)
  · intro h
    exact hperm.mem_iff.mpr (List.mem_dedup.mpr h)

/-! ## Generic lemmas about the rewriting traversal -/

mutual
theorem mapRefs_comp (f g : String → String) :
    (n : Node) → mapRefs g (mapRefs f n) = mapRefs (fun s => g (f s)) n
  | .null => rfl
  | .bool _ => rfl
  | .num _ => rfl
  | .str _ => rfl
  | .arr xs => by simp only [mapRefs, mapRefsArr_comp f g xs]
  | .map kvs => by simp only [mapRefs, mapRefsKVs_comp f g kvs]
theorem mapRefsArr_comp (f g : String → String) :
    (l : List Node) → mapRefsArr g (mapRefsArr f l) = mapRefsArr (fun s => g (f s)) l
  | [] => rfl
  | x :: xs => by simp only [mapRefsArr, mapRefs_comp f g x, mapRefsArr_comp f g xs]
theorem mapRefsKVs_comp (f g : String → String) :
    (l : List (String × Node)) → mapRefsKVs g (mapRefsKVs f l) = mapRefsKVs (fun s => g (f s)) l
  | [] => rfl
  | (k, v) :: rest => by
    have hrest := mapRefsKVs_comp f g rest
    by_cases hk : k = "$ref"
    · match v with
      | .str s => simp [mapRefsKVs, hk, hrest]
      | .null => simp [mapRefsKVs, hk, hrest, mapRefs]
      | .bool b => simp [mapRefsKVs, hk, hrest, mapRefs]
      | .num m => simp [mapRefsKVs, hk, hrest, mapRefs]
      | .arr xs => simp [mapRefsKVs, hk, hrest, mapRefs, mapRefsArr_comp f g xs]
      | .map kvs => simp [mapRefsKVs, hk, hrest, mapRefs, mapRefsKVs_comp f g kvs]
    · simp [mapRefsKVs, hk, hrest, mapRefs_comp f g v]
end

mutual
theorem mapRefs_congrOn (f g : String → String) :
    (n : Node) → (∀ s ∈ refStrings n, f s = g s) → mapRefs f n = mapRefs g n
  | .null, _ => rfl
  | .bool _, _ => rfl
  | .num _, _ => rfl
  | .str _, _ => rfl
  | .arr xs, h => by
    simp only [mapRefs]
    exact congrArg Node.arr (mapRefsArr_congrOn f g xs (by simpa [refStrings] using h))
  | .map kvs, h => by
    simp only [mapRefs]
    exact congrArg Node.map (mapRefsKVs_congrOn f g kvs (by simpa [refStrings] using h))
theorem mapRefsArr_congrOn (f g : String → String) :
    (l : List Node) → (∀ s ∈ refStringsArr l, f s = g s) → mapRefsArr f l = mapRefsArr g l
  | [], _ => rfl
  | x :: xs, h => by
    simp only [mapRefsArr]
    refine congrArg₂ List.cons ?_ ?_
    · exact mapRefs_congrOn f g x (fun s hs => h s (by simp [refStringsArr, hs]))
    · exact mapRefsArr_congrOn f g xs (fun s hs => h s (by simp [refStringsArr, hs]))
theorem mapRefsKVs_congrOn (f g : String → String) :
    (l : List (String × Node)) →
      (∀ s ∈ refStringsKVs l, f s = g s) → mapRefsKVs f l = mapRefsKVs g l
  | [], _ => rfl
  | (k, v) :: rest, h => by
    simp only [mapRefsKVs]
    refine congrArg₂ List.cons ?_ (mapRefsKVs_congrOn f g rest
      (fun s hs => h s (by simp [refStringsKVs, hs])))
    have hv : mapRefs f v = mapRefs g v :=
      mapRefs_congrOn f g v (fun s hs => h s (by simp [refStringsKVs, hs]))
    by_cases hk : k = "$ref"
    · match v with
      | .str s =>
        have : f s = g s := h s (by simp [refStringsKVs, hk, refStrings])
        simp [hk, this]
      | .null => simp [hk, hv]
      | .bool b => simp [hk, hv]
      | .num m => simp [hk, hv]
      | .arr xs => simp [hk, hv]
      | .map kvs => simp [hk, hv]
    · simp [hk, hv]
end

/-! ## String-level lemmas about the matchers and rewriters -/

theorem takeWhile_all {p : Char → Bool} :
    ∀ {l : List Char}, (∀ c ∈ l, p c = true) → l.takeWhile p = l := by
  intro l h
  induction l with
  | nil => rfl
  | cons c cs ih =>
    rw [List.takeWhile_cons, if_pos (h c (by simp))]
    rw [ih (fun x hx => h x (by simp [hx]))]

theorem takeWhile_append_stop {p : Char → Bool} {d : Char} (hd : p d = false) :
    ∀ (a l : List Char), (∀ c ∈ a, p c = true) → (a ++ d :: l).takeWhile p = a := by
  intro a l ha
  induction a with
  | nil => simp [List.takeWhile_cons, hd]
  | cons c cs ih =>
    rw [List.cons_append, List.takeWhile_cons, if_pos (ha c (by simp))]
    rw [ih (fun x hx => ha x (by simp [hx]))]

theorem takeWhile_mem {p : Char → Bool} :
    ∀ {l : List Char} {c : Char}, c ∈ l.takeWhile p → p c = true := by
  intro l
  induction l with
  | nil => intro c h; simp [List.takeWhile] at h
  | cons a as ih =>
    intro c h
    rw [List.takeWhile_cons] at h
    by_cases hp : p a
    · rw [if_pos hp] at h
      rcases List.mem_cons.mp h with he | hm
      · subst he; exact hp
      · exact ih hm
    · simp [hp] at h

theorem lsw_self_append : ∀ (p r : List Char), listStartsWith p (p ++ r) = true := by
  intro p r
  induction p with
  | nil => simp [listStartsWith]
  | cons c cs ih => simp [listStartsWith, ih]

/-- Characters in distinct boolean character classes are distinct. -/
theorem class_ne {c d : Char} {f : Char → Bool} (h : f c = true) (hd : f d = false) :
    c ≠ d := by
  intro he
  rw [he, hd] at h
  cases h

theorem quote_false_of_alpha {c : Char} (h : isAlphaChar c = true) : isQuoteChar c = false := by
  by_cases hq : isQuoteChar c
  · simp only [isQuoteChar, decide_eq_true_eq] at hq
    rcases hq with he | he <;> rw [he] at h <;> exact absurd h (by decide)
  · simpa using hq

theorem quote_false_of_name {c : Char} (h : isNameChar c = true) : isQuoteChar c = false := by
  by_cases hq : isQuoteChar c
  · simp only [isQuoteChar, decide_eq_true_eq] at hq
    rcases hq with he | he <;> rw [he] at h <;> exact absurd h (by decide)
  · simpa using hq

/-- The 20-character tail `/components/schemas/` of the shared pattern. -/
def csTail : List Char := ("/components/schemas/").data

theorem compSchemasPat_eq : compSchemasPat = '#' :: csTail := rfl

theorem compSchemasPat_length : compSchemasPat.length = 21 := rfl

theorem localRefStr_data (t : String) :
    (localRefStr t).data = compSchemasPat ++ t.data := rfl

theorem stripQuote_notquote {c : Char} {u : List Char} (h : isQuoteChar c = false) :
    stripQuote (c :: u) = c :: u := by simp [stripQuote, h]

theorem match_cross_conv_head_ne {s : String} {c : Char} {u : List Char}
    (hs : s.data = c :: u) (hq : isQuoteChar c = false) (hd : c ≠ '.') :
    match_cross_conv s = none := by
  unfold match_cross_conv
  rw [hs, stripQuote_notquote hq]
  simp [hd]

theorem match_self_conv_head_ne {s : String} {c : Char} {u : List Char}
    (hs : s.data = c :: u) (hq : isQuoteChar c = false) (hd : c ≠ '.') :
    match_self_conv s = none := by
  unfold match_self_conv
  rw [hs, stripQuote_notquote hq]
  simp [hd]

theorem match_sibling_not_alpha {s : String} {c : Char} {u : List Char}
    (hs : s.data = c :: u) (hq : isQuoteChar c = false) (ha : isAlphaChar c = false) :
    match_sibling s = none := by
  unfold match_sibling
  rw [hs, stripQuote_notquote hq]
  simp [ha]

theorem fix_ref_of_none {s : String} (h : match_sibling s = none) : fix_ref s = s := by
  unfold fix_ref
  rw [h]

theorem fix_ref_of_some {s f p : String} (h : match_sibling s = some (f, p)) :
    fix_ref s = "../" ++ f ++ "#" ++ p := by
  unfold fix_ref
  rw [h]

theorem convert_ref_event_cases (inl : List String) (s : String) :
    convert_ref_event inl s = s ∨ ∃ t, convert_ref_event inl s = localRefStr t := by
  unfold convert_ref_event
  cases h1 : match_cross_conv s with
  | some t =>
    by_cases ht : t ∈ inl
    · right; exact ⟨t, by simp [ht]⟩
    · cases h2 : match_self_conv s with
      | some t2 => right; exact ⟨t2, by simp [ht]⟩
      | none => left; simp [ht]
  | none =>
    cases h2 : match_self_conv s with
    | some t2 => right; exact ⟨t2, rfl⟩
    | none => left; rfl

theorem localRefStr_cons (t : String) :
    (localRefStr t).data = '#' :: (csTail ++ t.data) := rfl

theorem conv_local_stable (inl : List String) (t : String) :
    convert_ref_event inl (localRefStr t) = localRefStr t := by
  have h1 := match_cross_conv_head_ne (localRefStr_cons t) (by decide) (by decide)
  have h2 := match_self_conv_head_ne (localRefStr_cons t) (by decide) (by decide)
  unfold convert_ref_event
  rw [h1, h2]

theorem fix_local_stable (t : String) : fix_ref (localRefStr t) = localRefStr t :=
  fix_ref_of_none (match_sibling_not_alpha (localRefStr_cons t) (by decide) (by decide))

theorem takeNonQuote_all {l : List Char} (h : ∀ c ∈ l, isQuoteChar c = false) :
    takeNonQuote l = l := by
  apply takeWhile_all
  intro c hc
  simp [h c hc]

theorem string_eta (t : String) : String.mk t.data = t := rfl

theorem drop21_pat (X : List Char) : (compSchemasPat ++ X).drop 21 = X := by
  rw [← compSchemasPat_length, List.drop_left]

theorem lsw_pat_self (X : List Char) :
    listStartsWith compSchemasPat ('#' :: (csTail ++ X)) = true := by
  have := lsw_self_append compSchemasPat X
  rwa [compSchemasPat_eq, List.cons_append] at this

theorem drop21_cons (X : List Char) : ('#' :: (csTail ++ X)).drop 21 = X := by
  have := drop21_pat X
  rwa [compSchemasPat_eq, List.cons_append] at this

/-- Computation of the cross-file conversion pattern on a `./`-self-qualified
local ref: group 1 backtracks to the bare `/`, group 2 is the type name. -/
theorem drop20_cs (X : List Char) : (csTail ++ X).drop 20 = X := by
  rw [show (20 : Nat) = csTail.length from rfl, List.drop_left]

theorem match_cross_conv_eqn {s : String} {c : Char} {u : List Char}
    (hs : stripQuote s.data = c :: u) :
    match_cross_conv s =
      (if c = '.' then
        if u.takeWhile (fun x => x ≠ '#') = [] then none
        else if listStartsWith compSchemasPat (u.drop (u.takeWhile (fun x => x ≠ '#')).length) then
          if takeNonQuote ((u.drop (u.takeWhile (fun x => x ≠ '#')).length).drop 21) = [] then
            none
          else some (String.mk (takeNonQuote
            ((u.drop (u.takeWhile (fun x => x ≠ '#')).length).drop 21)))
        else none
      else none) := by
  unfold match_cross_conv
  rw [hs]

theorem match_self_conv_eqn {s : String} {c : Char} {u : List Char}
    (hs : stripQuote s.data = c :: u) :
    match_self_conv s =
      (if c = '.' then
        if listStartsWith compSchemasPat (selfTarget u) then
          if takeNonQuote ((selfTarget u).drop 21) = [] then none
          else some (String.mk (takeNonQuote ((selfTarget u).drop 21)))
        else none
      else none) := by
  unfold match_self_conv
  rw [hs]

theorem match_sibling_eqn {s : String} {c : Char} {cs : List Char}
    (hs : stripQuote s.data = c :: cs) :
    match_sibling s =
      (if isAlphaChar c then
        if listStartsWith ((".yaml#").data) (cs.drop (cs.takeWhile isNameChar).length) then
          if ((cs.drop (cs.takeWhile isNameChar).length).drop 6).takeWhile
              (fun x => x ≠ nlChar) = [] then none
          else some (String.mk (c :: cs.takeWhile isNameChar) ++ ".yaml",
            String.mk (((cs.drop (cs.takeWhile isNameChar).length).drop 6).takeWhile
              (fun x => x ≠ nlChar)))
        else none
      else none) := by
  unfold match_sibling
  rw [hs]

/-- Computation of the cross-file conversion pattern on a `./`-self-qualified
local ref: the backtracking group ends up holding the bare `/`, and the type
name is captured after the fixed fragment. -/
theorem match_cross_conv_self (t : String)
    (hq : ∀ c ∈ t.data, isQuoteChar c = false) (hne : t.data ≠ []) :
    match_cross_conv ("./" ++ localRefStr t) = some t := by
  have hsq : stripQuote (("./" ++ localRefStr t).data) =
      '.' :: ('/' :: (compSchemasPat ++ t.data)) := by
    rw [show ("./" ++ localRefStr t).data = '.' :: ('/' :: (compSchemasPat ++ t.data)) from rfl]
    exact stripQuote_notquote (by decide)
  have htw : ('/' :: (compSchemasPat ++ t.data)).takeWhile (fun x => x ≠ '#') = ['/'] := by
    rw [show '/' :: (compSchemasPat ++ t.data) = ['/'] ++ '#' :: (csTail ++ t.data) from by
      rw [compSchemasPat_eq]; rfl]
    exact takeWhile_append_stop (by decide) ['/'] _ (by decide)
  rw [match_cross_conv_eqn hsq, if_pos rfl, htw]
  rw [if_neg (by simp : ¬ (['/'] : List Char) = [])]
  rw [show (('/' :: (compSchemasPat ++ t.data)).drop (['/'].length)) = compSchemasPat ++ t.data
    from rfl]
  rw [lsw_self_append, if_pos rfl, drop21_pat, takeNonQuote_all hq, if_neg hne, string_eta]

theorem match_self_conv_self (t : String)
    (hq : ∀ c ∈ t.data, isQuoteChar c = false) (hne : t.data ≠ []) :
    match_self_conv ("./" ++ localRefStr t) = some t := by
  have hsq : stripQuote (("./" ++ localRefStr t).data) =
      '.' :: ('/' :: (compSchemasPat ++ t.data)) := by
    rw [show ("./" ++ localRefStr t).data = '.' :: ('/' :: (compSchemasPat ++ t.data)) from rfl]
    exact stripQuote_notquote (by decide)
  rw [match_self_conv_eqn hsq, if_pos rfl]
  rw [show selfTarget ('/' :: (compSchemasPat ++ t.data)) = compSchemasPat ++ t.data from by
    simp [selfTarget]]
  rw [lsw_self_append, if_pos rfl, drop21_pat, takeNonQuote_all hq, if_neg hne, string_eta]

/-- The `./`-self-qualified ref is rewritten to the bare local pointer
(whether or not the type was inlined). -/
theorem conv_self_qualified (inl : List String) (t : String)
    (hq : ∀ c ∈ t.data, isQuoteChar c = false) (hne : t.data ≠ []) :
    convert_ref_event inl ("./" ++ localRefStr t) = localRefStr t := by
  unfold convert_ref_event
  rw [match_cross_conv_self t hq hne, match_self_conv_self t hq hne]
  by_cases ht : t ∈ inl
  · simp [ht]
  · simp [ht]

theorem fix_self_qualified (t : String) :
    fix_ref ("./" ++ localRefStr t) = "./" ++ localRefStr t :=
  fix_ref_of_none (match_sibling_not_alpha
    (show ("./" ++ localRefStr t).data = '.' :: ('/' :: (compSchemasPat ++ t.data)) from rfl)
    (by decide) (by decide))

/-- Classification of the three local forms by `find_local_refs`: the bare
pointer. -/
theorem match_local_ref_bare (t : String)
    (hq : ∀ c ∈ t.data, isQuoteChar c = false) (hne : t.data ≠ []) :
    match_local_ref (localRefStr t) = some t := by
  have hsq : stripQuote ((localRefStr t).data) = '#' :: (csTail ++ t.data) := by
    rw [localRefStr_cons]
    exact stripQuote_notquote (by decide)
  unfold match_local_ref
  rw [hsq]
  rw [show localTarget ('#' :: (csTail ++ t.data)) = '#' :: (csTail ++ t.data) from by
    simp [localTarget, show ¬ (('#' : Char) = '.') from by decide]]
  rw [lsw_pat_self, if_pos rfl, drop21_cons, takeNonQuote_all hq, if_neg hne, string_eta]

/-- Classification: the `./`-self-qualified pointer. -/
theorem match_local_ref_self (t : String)
    (hq : ∀ c ∈ t.data, isQuoteChar c = false) (hne : t.data ≠ []) :
    match_local_ref ("./" ++ localRefStr t) = some t := by
  have hsq : stripQuote (("./" ++ localRefStr t).data) =
      '.' :: ('/' :: (compSchemasPat ++ t.data)) := by
    rw [show ("./" ++ localRefStr t).data = '.' :: ('/' :: (compSchemasPat ++ t.data)) from rfl]
    exact stripQuote_notquote (by decide)
  unfold match_local_ref
  rw [hsq]
  rw [show localTarget ('.' :: ('/' :: (compSchemasPat ++ t.data))) = compSchemasPat ++ t.data
    from by simp [localTarget]]
  rw [lsw_self_append, if_pos rfl, drop21_pat, takeNonQuote_all hq, if_neg hne, string_eta]

theorem lsw_pat_alpha {a : Char} (ha : isAlphaChar a = true) (l : List Char) :
    listStartsWith compSchemasPat (a :: l) = false := by
  rw [compSchemasPat_eq]
  simp [listStartsWith, (class_ne ha (by decide : isAlphaChar '#' = false)).symm]

/-- Classification: the filename-self-qualified pointer is recognized only
through the `source_file` branch. -/
theorem classify_src_qualified (src t : String) {a : Char} {w : List Char}
    (hsrc : src.data = a :: w) (ha : isAlphaChar a = true)
    (hq : ∀ c ∈ t.data, isQuoteChar c = false) (hne : t.data ≠ []) :
    classify_local (some src) (src ++ localRefStr t) = some t := by
  have hnd : ¬ (a = '.') := class_ne ha (by decide : isAlphaChar '.' = false)
  have hdata : (src ++ localRefStr t).data = a :: (w ++ (compSchemasPat ++ t.data)) := by
    show src.data ++ (localRefStr t).data = _
    rw [hsrc, localRefStr_data, List.cons_append]
  have hsq : stripQuote ((src ++ localRefStr t).data) = a :: (w ++ (compSchemasPat ++ t.data)) := by
    rw [hdata]
    exact stripQuote_notquote (quote_false_of_alpha ha)
  have hlocal : match_local_ref (src ++ localRefStr t) = none := by
    unfold match_local_ref
    rw [hsq]
    rw [show localTarget (a :: (w ++ (compSchemasPat ++ t.data))) =
      a :: (w ++ (compSchemasPat ++ t.data)) from by simp [localTarget, hnd]]
    rw [lsw_pat_alpha ha]
    simp
  have hsq2 : stripQuote ((src ++ localRefStr t).data) = src.data ++ (compSchemasPat ++ t.data) := by
    rw [hsq, hsrc, List.cons_append]
  have hsqr : match_src_qualified src (src ++ localRefStr t) = some t := by
    unfold match_src_qualified
    rw [hsq2, lsw_self_append, if_pos rfl, List.drop_left, lsw_self_append, if_pos rfl,
      drop21_pat, takeNonQuote_all hq, if_neg hne, string_eta]
  unfold classify_local
  simp [hlocal, hsqr]

theorem drop6_yaml (X : List Char) : (((".yaml#").data) ++ X).drop 6 = X := by
  rw [show (6 : Nat) = ((".yaml#").data).length from rfl, List.drop_left]

/-- Computation of `fix_relative_paths_for_generated`'s pattern on a bare
sibling-file reference `name.yaml#pointer`. -/
theorem match_sibling_compute {a : Char} {w : List Char} (ptr : String)
    (ha : isAlphaChar a = true) (hw : ∀ c ∈ w, isNameChar c = true)
    (hp : ptr.data ≠ []) (hnl : ∀ c ∈ ptr.data, ¬ c = nlChar) :
    match_sibling (String.mk (a :: w) ++ ".yaml#" ++ ptr) =
      some (String.mk (a :: w) ++ ".yaml", ptr) := by
  have hdata : (String.mk (a :: w) ++ ".yaml#" ++ ptr).data =
      a :: (w ++ ('.' :: 'y' :: 'a' :: 'm' :: 'l' :: '#' :: ptr.data)) := by
    show ((a :: w) ++ (".yaml#").data) ++ ptr.data = _
    simp [List.cons_append, List.append_assoc]
  have hsq : stripQuote ((String.mk (a :: w) ++ ".yaml#" ++ ptr).data) =
      a :: (w ++ ('.' :: 'y' :: 'a' :: 'm' :: 'l' :: '#' :: ptr.data)) := by
    rw [hdata]
    exact stripQuote_notquote (quote_false_of_alpha ha)
  have htw : (w ++ ('.' :: 'y' :: 'a' :: 'm' :: 'l' :: '#' :: ptr.data)).takeWhile
      isNameChar = w := takeWhile_append_stop (by decide) w _ hw
  have hdrop : (w ++ ('.' :: 'y' :: 'a' :: 'm' :: 'l' :: '#' :: ptr.data)).drop w.length =
      '.' :: 'y' :: 'a' :: 'm' :: 'l' :: '#' :: ptr.data := List.drop_left _ _
  have hlsw : listStartsWith ((".yaml#").data)
      ('.' :: 'y' :: 'a' :: 'm' :: 'l' :: '#' :: ptr.data) = true :=
    lsw_self_append ((".yaml#").data) ptr.data
  have hnltw : ptr.data.takeWhile (fun x => x ≠ nlChar) = ptr.data := by
    apply takeWhile_all
    intro c hc
    simp [hnl c hc]
  rw [match_sibling_eqn hsq, if_pos ha]
  simp only [htw, hdrop]
  rw [if_pos hlsw]
  rw [show (('.' :: 'y' :: 'a' :: 'm' :: 'l' :: '#' :: ptr.data).drop 6) = ptr.data from rfl]
  rw [hnltw, if_neg hp, string_eta]

/-- A bare (un-prefixed) sibling-file reference into `components/schemas`
whose type name is in the inlined set: exactly the refs on which a second
application of `convert_refs_to_local` after
`fix_relative_paths_for_generated` makes further changes. -/
def bare_sibling_to_inlined (inl : List String) (s : String) : Prop :=
  ∃ f p, match_sibling s = some (f, p) ∧
    listStartsWith csTail p.data = true ∧
    takeNonQuote (p.data.drop 20) ≠ [] ∧
    String.mk (takeNonQuote (p.data.drop 20)) ∈ inl

/-- Structure of the groups produced by a successful sibling match. -/
theorem match_sibling_shape {s f p : String} (h : match_sibling s = some (f, p)) :
    ∃ a w, isAlphaChar a = true ∧ (∀ c ∈ w, isNameChar c = true) ∧
      f.data = (a :: w) ++ ((".yaml").data) ∧ p.data ≠ [] := by
  unfold match_sibling at h
  split at h
  case h_2 => cases h
  case h_1 c cs hsq =>
    split at h
    case isFalse => cases h
    case isTrue ha =>
      split at h
      case isFalse => cases h
      case isTrue hl =>
        split at h
        case isTrue => cases h
        case isFalse hne =>
          have h2 := Option.some.inj h
          have hf : String.mk (c :: cs.takeWhile isNameChar) ++ ".yaml" = f :=
            congrArg Prod.fst h2
          have hpp :
              String.mk (((cs.drop (cs.takeWhile isNameChar).length).drop 6).takeWhile
                (fun x => x ≠ nlChar)) = p := congrArg Prod.snd h2
          refine ⟨c, cs.takeWhile isNameChar, ha, fun x hx => takeWhile_mem hx, ?_, ?_⟩
          · rw [← hf]
            rfl
          · rw [← hpp]
            simpa using hne

/-- After `fix_relative_paths_for_generated` rewrote a bare sibling ref, the
conversion and path-fixing passes leave the result unchanged — unless the
original was a bare sibling ref into `components/schemas` of an inlined type
(the excluded case). -/
theorem conv_fix_out_stable (inl : List String) {s f p : String}
    (hm : match_sibling s = some (f, p))
    (hbar : ¬ bare_sibling_to_inlined inl s) :
    convert_ref_event inl ("../" ++ f ++ "#" ++ p) = "../" ++ f ++ "#" ++ p ∧
    fix_ref ("../" ++ f ++ "#" ++ p) = "../" ++ f ++ "#" ++ p := by
  obtain ⟨a, w, ha, hw, hf, hpne⟩ := match_sibling_shape hm
  have hdata : ("../" ++ f ++ "#" ++ p).data =
      '.' :: ('.' :: '/' :: (f.data ++ '#' :: p.data)) := by
    show ((("../").data ++ f.data) ++ ("#").data) ++ p.data = _
    simp [List.append_assoc]
  have hsq : stripQuote (("../" ++ f ++ "#" ++ p).data) =
      '.' :: ('.' :: '/' :: (f.data ++ '#' :: p.data)) := by
    rw [hdata]
    exact stripQuote_notquote (by decide)
  have hfix : fix_ref ("../" ++ f ++ "#" ++ p) = "../" ++ f ++ "#" ++ p :=
    fix_ref_of_none (match_sibling_not_alpha hdata (by decide) (by decide))
  have hshape : ('.' :: '/' :: (f.data ++ '#' :: p.data) : List Char) =
      ('.' :: '/' :: f.data) ++ '#' :: p.data := by
    simp
  have htw : ('.' :: '/' :: (f.data ++ '#' :: p.data)).takeWhile (fun x => x ≠ '#') =
      '.' :: '/' :: f.data := by
    rw [hshape]
    apply takeWhile_append_stop (by decide)
    intro c hc
    rcases List.mem_cons.mp hc with he | hc
    · subst he; decide
    rcases List.mem_cons.mp hc with he | hc
    · subst he; decide
    rw [hf] at hc
    rcases List.mem_append.mp hc with hc | hc
    · rcases List.mem_cons.mp hc with he | hc
      · subst he
        show decide (c ≠ '#') = true
        exact decide_eq_true (class_ne ha (by decide : isAlphaChar '#' = false))
      · show decide (c ≠ '#') = true
        exact decide_eq_true (class_ne (hw c hc) (by decide : isNameChar '#' = false))
    · have hy : ∀ x ∈ ((".yaml").data), decide (x ≠ '#') = true := by decide
      exact hy c hc
  have hdrop : ('.' :: '/' :: (f.data ++ '#' :: p.data)).drop
      (('.' :: '/' :: f.data).length) = '#' :: p.data := by
    rw [hshape]
    exact List.drop_left _ _
  have hself : match_self_conv ("../" ++ f ++ "#" ++ p) = none := by
    rw [match_self_conv_eqn hsq]
    rw [show selfTarget ('.' :: '/' :: (f.data ++ '#' :: p.data)) =
      '.' :: '/' :: (f.data ++ '#' :: p.data) from by
        simp [selfTarget, show ¬ (('.' : Char) = '/') from by decide]]
    rw [show listStartsWith compSchemasPat ('.' :: '/' :: (f.data ++ '#' :: p.data)) = false
      from by
        rw [compSchemasPat_eq]
        simp [listStartsWith, show ¬ (('#' : Char) = '.') from by decide]]
    simp
  have hlsw2 : listStartsWith compSchemasPat ('#' :: p.data) = listStartsWith csTail p.data := by
    rw [compSchemasPat_eq]
    simp [listStartsWith]
  have hd21 : (('#' :: p.data : List Char).drop 21) = p.data.drop 20 := rfl
  refine ⟨?_, hfix⟩
  by_cases hcs : listStartsWith csTail p.data = true
  · by_cases ht2 : takeNonQuote (p.data.drop 20) = []
    · have hcross : match_cross_conv ("../" ++ f ++ "#" ++ p) = none := by
        rw [match_cross_conv_eqn hsq, if_pos rfl]
        simp only [htw, hdrop]
        rw [if_neg (by simp : ¬ ('.' :: '/' :: f.data : List Char) = []), hlsw2, if_pos hcs,
          hd21, if_pos ht2]
      unfold convert_ref_event
      rw [hcross, hself]
    · have hcross : match_cross_conv ("../" ++ f ++ "#" ++ p) =
          some (String.mk (takeNonQuote (p.data.drop 20))) := by
        rw [match_cross_conv_eqn hsq, if_pos rfl]
        simp only [htw, hdrop]
        rw [if_neg (by simp : ¬ ('.' :: '/' :: f.data : List Char) = []), hlsw2, if_pos hcs,
          hd21, if_neg ht2]
      have hnotin : ¬ String.mk (takeNonQuote (p.data.drop 20)) ∈ inl := by
        intro hmem2
        exact hbar ⟨f, p, hm, hcs, ht2, hmem2⟩
      unfold convert_ref_event
      rw [hcross, hself]
      simp [hnotin]
  · have hcross : match_cross_conv ("../" ++ f ++ "#" ++ p) = none := by
      rw [match_cross_conv_eqn hsq, if_pos rfl]
      simp only [htw, hdrop]
      rw [if_neg (by simp : ¬ ('.' :: '/' :: f.data : List Char) = []), hlsw2, if_neg hcs]
    unfold convert_ref_event
    rw [hcross, hself]

/-- One application of the rewrite step (`convert_refs_to_local` then
`fix_relative_paths_for_generated`) at the level of a single `$ref` string. -/
def rewrite_ref (inl : List String) (s : String) : String :=
  fix_ref (convert_ref_event inl s)

/-- Pointwise idempotence of the rewrite step away from the excluded refs. -/
theorem rewrite_ref_idem (inl : List String) (s : String)
    (h : ¬ bare_sibling_to_inlined inl s) :
    rewrite_ref inl (rewrite_ref inl s) = rewrite_ref inl s := by
  rcases convert_ref_event_cases inl s with hc | ⟨t, hc⟩
  · unfold rewrite_ref
    rw [hc]
    cases hms : match_sibling s with
    | none =>
      rw [fix_ref_of_none hms, hc, fix_ref_of_none hms]
    | some fp =>
      obtain ⟨f, p⟩ := fp
      obtain ⟨hconv2, hfix2⟩ := conv_fix_out_stable inl hms h
      rw [fix_ref_of_some hms, hconv2, hfix2]
  · unfold rewrite_ref
    rw [hc, fix_local_stable t, conv_local_stable inl t, fix_local_stable t]

/-- The rewrite step of `resolve_event_schema` on a whole document:
conversion to local refs followed by relative-path adjustment. -/
def rewrite_step (inl : List String) (n : Node) : Node :=
  fix_relative_paths_for_generated (convert_refs_to_local inl n)

/-- Tree-level idempotence of the rewrite step, away from the excluded refs. -/
theorem rewrite_step_idem (inl : List String) (doc : Node)
    (h : ∀ s ∈ refStrings doc, ¬ bare_sibling_to_inlined inl s) :
    rewrite_step inl (rewrite_step inl doc) = rewrite_step inl doc := by
  unfold rewrite_step convert_refs_to_local fix_relative_paths_for_generated
  rw [mapRefs_comp (convert_ref_event inl) fix_ref doc,
    mapRefs_comp (convert_ref_event inl) fix_ref]
  rw [mapRefs_comp (fun s => fix_ref (convert_ref_event inl s))
    (fun s => fix_ref (convert_ref_event inl s)) doc]
  exact mapRefs_congrOn _ _ doc (fun s hs => rewrite_ref_idem inl s (h s hs))

/-! ## Dictionary-merge characterizations -/

theorem string_data_inj {s t : String} (h : s.data = t.data) : s = t := by
  cases s
  cases t
  exact congrArg String.mk h

theorem lookup_mapInsert (t k : String) (v : Node) :
    ∀ l : List (String × Node),
      lookupKey t (mapInsert l k v) = if t = k then some v else lookupKey t l := by
  intro l
  induction l with
  | nil =>
    simp only [mapInsert, lookupKey]
    by_cases h : t = k
    · simp [h]
    · simp [h, Ne.symm h]
  | cons p rest ih =>
    obtain ⟨a, w⟩ := p
    simp only [mapInsert]
    by_cases hak : a = k
    · rw [if_pos hak]
      subst hak
      simp only [lookupKey]
      by_cases h : a = t
      · subst h
        simp
      · have h2 : ¬ t = a := fun hh => h hh.symm
        simp [h, h2]
    · rw [if_neg hak]
      simp only [lookupKey, ih]
      by_cases h : a = t
      · subst h
        simp [fun hh : a = k => hak hh]
      · simp [h]

/-- `generate-client-schema.py` keys its merged dictionary by bare type name
and keeps the first definition seen for each name (`if schema_name not in
all_schemas`). -/
theorem merge_first_wins :
    ∀ (new all : List (String × Node)) (t : String),
      lookupKey t (merge_service_schemas all new) =
        (lookupKey t all).orElse (fun _ => lookupKey t new) := by
  intro new
  induction new with
  | nil =>
    intro all t
    cases h : lookupKey t all <;> simp [merge_service_schemas, h, lookupKey, Option.orElse]
  | cons p rest ih =>
    intro all t
    obtain ⟨k, v⟩ := p
    show lookupKey t (merge_service_schemas
      (if hasKey all k then all else all ++ [(k, v)]) rest) = _
    by_cases hk : hasKey all k
    · rw [if_pos hk, ih]
      cases hla : lookupKey t all with
      | some w => simp [Option.orElse]
      | none =>
        have hkt : ¬ k = t := by
          intro h
          rw [h] at hk
          simp [hasKey, hla] at hk
        simp [Option.orElse, lookupKey, hkt]
    · rw [if_neg hk, ih, lookupKey_append]
      cases hla : lookupKey t all with
      | some w => simp [Option.orElse]
      | none =>
        by_cases hkt : k = t
        · subst hkt
          simp [Option.orElse, lookupKey]
        · simp [Option.orElse, lookupKey, hkt]

/-- `dict.update` (API resolver, archive extractor): with duplicate-free new
keys, the updated dictionary answers every lookup from `new` first — later
entries win. -/
theorem dictUpdate_lookup :
    ∀ (new base : List (String × Node)) (t : String), (keysOf new).Nodup →
      lookupKey t (dictUpdate base new) =
        (lookupKey t new).orElse (fun _ => lookupKey t base) := by
  intro new
  induction new with
  | nil =>
    intro base t _
    cases h : lookupKey t base <;> simp [dictUpdate, h, lookupKey, Option.orElse]
  | cons p rest ih =>
    intro base t hnd
    obtain ⟨k, v⟩ := p
    have hk_notin : k ∉ keysOf rest := by
      simp only [keysOf] at hnd ⊢
      exact (List.nodup_cons.mp hnd).1
    have hnd' : (keysOf rest).Nodup := by
      simp only [keysOf] at hnd ⊢
      exact (List.nodup_cons.mp hnd).2
    show lookupKey t (dictUpdate (mapInsert base k v) rest) = _
    rw [ih (mapInsert base k v) t hnd', lookup_mapInsert]
    by_cases hkt : t = k
    · subst hkt
      have hrest : lookupKey t rest = none := by
        cases h : lookupKey t rest with
        | none => rfl
        | some w =>
          exact absurd (lookupKey_isSome_iff.mp (by simp [h])) hk_notin
      simp [hrest, lookupKey, Option.orElse]
    · have h2 : ¬ k = t := fun hh => hkt hh.symm
      simp [lookupKey, hkt, h2, Option.orElse]

/-! ## Determinism of the sorted insertion (`sorted(types_to_inline.items())`) -/

instance : IsTotal (String × Node) (fun a b => a.1 ≤ b.1) :=
  ⟨fun a b => le_total a.1 b.1⟩

instance : IsTrans (String × Node) (fun a b => a.1 ≤ b.1) :=
  ⟨fun _ _ _ h1 h2 => le_trans h1 h2⟩

/-- Two sorted association lists that are permutations of each other with
duplicate-free keys are equal. -/
theorem sorted_perm_keys_eq :
    ∀ (l1 l2 : List (String × Node)), l1.Perm l2 →
      List.Sorted (fun a b => a.1 ≤ b.1) l1 → List.Sorted (fun a b => a.1 ≤ b.1) l2 →
      (keysOf l1).Nodup → l1 = l2 := by
  intro l1
  induction l1 with
  | nil =>
    intro l2 hp _ _ _
    exact (hp.symm.eq_nil).symm
  | cons a l1 ih =>
    intro l2 hp hs1 hs2 hnd
    cases l2 with
    | nil => exact absurd hp.eq_nil (by simp)
    | cons b l2 =>
      obtain ⟨ha1, hs1t⟩ := List.sorted_cons.mp hs1
      obtain ⟨hb1, hs2t⟩ := List.sorted_cons.mp hs2
      by_cases hab : a = b
      · subst hab
        have hpt := hp.cons_inv
        have hndt : (keysOf l1).Nodup := by
          simp only [keysOf, List.map_cons, List.nodup_cons] at hnd
          exact hnd.2
        rw [ih l2 hpt hs1t hs2t hndt]
      · have hain : a ∈ b :: l2 := hp.mem_iff.mp (List.mem_cons_self a l1)
        have hbin : b ∈ a :: l1 := hp.symm.mem_iff.mp (List.mem_cons_self b l2)
        have ha2 : a ∈ l2 := by
          rcases List.mem_cons.mp hain with h | h
          · exact absurd h hab
          · exact h
        have hb2 : b ∈ l1 := by
          rcases List.mem_cons.mp hbin with h | h
          · exact absurd h.symm hab
          · exact h
        have hle1 : a.1 ≤ b.1 := ha1 b hb2
        have hle2 : b.1 ≤ a.1 := hb1 a ha2
        have hkey : a.1 = b.1 := le_antisymm hle1 hle2
        exfalso
        have : a.1 ∈ keysOf l1 := by
          rw [hkey]
          exact List.mem_map_of_mem Prod.fst hb2
        simp only [keysOf, List.map_cons, List.nodup_cons] at hnd
        exact hnd.1 this

/-- The sorted insertion used by `resolve-api-refs.py` is a function of the
collected dictionary as a set: any collection order yields the same sorted
list. -/
theorem sortByKey_eq_of_perm (l1 l2 : List (String × Node)) (hp : l1.Perm l2)
    (hnd : (keysOf l1).Nodup) : sortByKey l1 = sortByKey l2 := by
  have hperm : (sortByKey l1).Perm (sortByKey l2) :=
    ((List.perm_insertionSort _ l1).trans hp).trans (List.perm_insertionSort _ l2).symm
  have hnds : (keysOf (sortByKey l1)).Nodup := by
    have : (keysOf (sortByKey l1)).Perm (keysOf l1) :=
      (List.perm_insertionSort _ l1).map Prod.fst
    exact this.symm.nodup hnd
  exact sorted_perm_keys_eq _ _ hperm
    (List.sorted_insertionSort _ l1) (List.sorted_insertionSort _ l2) hnds

/-! ## Case analyses of the API string rewriter -/

/-- The API rewriter either leaves a ref unchanged or replaces it with a bare
local pointer; it never prepends path segments. -/
theorem convert_ref_api_cases (inl : List String) (s : String) :
    convert_ref_api inl s = s ∨ ∃ t, convert_ref_api inl s = localRefStr t := by
  unfold convert_ref_api
  cases h : match_cross_api s with
  | none => exact Or.inl rfl
  | some ft =>
    obtain ⟨f, t⟩ := ft
    by_cases ht : t ∈ inl
    · exact Or.inr ⟨t, by simp [ht]⟩
    · exact Or.inl (by simp [ht])

/-! ## No-op behavior of the resolvers -/

theorem resolve_api_none_of_no_allof (fs : List (String × Node)) (apiDoc : Node)
    (h : find_allof_cross_file_refs apiDoc = []) :
    resolve_api_schema fs apiDoc = none := by
  simp [resolve_api_schema, h]

theorem resolve_event_none_of_no_cross (fs : List (String × Node)) (evDoc : Node)
    (srcName : String) (h : find_cross_file_refs evDoc = []) :
    (resolve_event_schema fs evDoc srcName).out = none := by
  simp [resolve_event_schema, h]

theorem ev_collect_types_no_nested (schemas : List (String × Node)) :
    ∀ (types : List String) (acc : List (String × Node)),
      (∀ t ∈ types, ∀ d, lookupKey t schemas = some d → has_nested_refs d = false) →
      ev_collect_types schemas types acc = acc := by
  intro types
  induction types with
  | nil =>
    intro acc _
    rfl
  | cons t rest ih =>
    intro acc h
    show ev_collect_types schemas rest
      (match lookupKey t schemas with
       | none => acc
       | some d =>
         if has_nested_refs d then
           dictUpdate acc (get_type_with_dependencies schemas evOrder (schemas.length + 1) t [])
         else acc) = acc
    have hrest : ∀ t ∈ rest, ∀ d, lookupKey t schemas = some d → has_nested_refs d = false :=
      fun u hu d hd => h u (List.mem_cons_of_mem _ hu) d hd
    cases hl : lookupKey t schemas with
    | none => exact ih acc hrest
    | some d =>
      show ev_collect_types schemas rest
        (if has_nested_refs d = true then
          dictUpdate acc (get_type_with_dependencies schemas evOrder (schemas.length + 1) t [])
        else acc) = acc
      rw [h t (List.mem_cons_self t rest) d hl, if_neg (by simp : ¬ (false = true))]
      exact ih acc hrest

theorem ev_fold_fst (fs : List (String × Node)) (cross : List (String × String))
    (hnest : ∀ p ∈ cross, ∀ src, loadSource fs p.1 = some src →
      ∀ d, lookupKey p.2 (components_schemas src) = some d → has_nested_refs d = false) :
    ∀ (files : List String) (acc : List (String × Node) × List String),
      (files.foldl (ev_step fs cross) acc).1 = acc.1 := by
  intro files
  induction files with
  | nil =>
    intro acc
    rfl
  | cons f rest ih =>
    intro acc
    show (rest.foldl (ev_step fs cross) (ev_step fs cross acc f)).1 = acc.1
    rw [ih (ev_step fs cross acc f)]
    unfold ev_step
    cases hload : loadSource fs f with
    | none => rfl
    | some src =>
      show ev_collect_types (components_schemas src)
        (((cross.filter (fun p => p.1 = f)).map Prod.snd).dedup) acc.1 = acc.1
      apply ev_collect_types_no_nested
      intro t ht d hd
      obtain ⟨p, hp, hpt⟩ := List.mem_map.mp (List.mem_dedup.mp ht)
      obtain ⟨hpc, hpf⟩ := List.mem_filter.mp hp
      have hpf : p.1 = f := by simpa using hpf
      subst hpt
      exact hnest p hpc src (hpf ▸ hload) d hd

/-- With no reachable complex type, the event resolver collects nothing and
writes no output. -/
theorem resolve_event_none_of_no_complex (fs : List (String × Node)) (evDoc : Node)
    (srcName : String)
    (h : ∀ p ∈ find_cross_file_refs evDoc, ∀ src, loadSource fs p.1 = some src →
      ∀ d, lookupKey p.2 (components_schemas src) = some d → has_nested_refs d = false) :
    (resolve_event_schema fs evDoc srcName).out = none := by
  have hnest : ∀ p ∈ (find_cross_file_refs evDoc).dedup, ∀ src,
      loadSource fs p.1 = some src →
      ∀ d, lookupKey p.2 (components_schemas src) = some d → has_nested_refs d = false :=
    fun p hp => h p (List.mem_dedup.mp hp)
  unfold resolve_event_schema ev_finish
  by_cases hc : ((find_cross_file_refs evDoc).dedup).isEmpty
  · rw [if_pos hc]
  · rw [if_neg hc, ev_fold_fst fs _ hnest]
    rfl

/-- The depth guard of `traverse_schema` silently returns the accumulated
paths when `depth > 10`, with no error signalled. -/
theorem traverse_depth_guard (cur : Node) (allS : List (String × Node)) (fuel : Nat)
    (schema : Node) (path : String) (paths : List (String × String))
    (visited : List String) (depth : Nat) (h : depth > 10) :
    traverse_schema cur allS (fuel + 1) schema path paths visited depth = paths := by
  unfold traverse_schema
  rw [if_pos h]

/-! ## Strict-mode wrapper (modelled) -/

/-- Modelled from the spec: the strict flag lives in the host shell pipeline
(`generate-service-events.sh` and friends), which is not part of
`src/scripts/`; per the spec, strict mode turns any resolution warning into a
non-zero exit status with no output file, while non-strict mode keeps the
warnings and the partial output. -/
def strictResolveEvent (fs : List (String × Node)) (evDoc : Node) (srcName : String) :
    Except Nat (Option Node) :=
  let r := resolve_event_schema fs evDoc srcName
  if r.warnings.isEmpty then Except.ok r.out else Except.error 1

/-! ## Concrete scenario documents -/

/-- Observation helper: the scalar under a definition's `type` key. -/
def typeTag : Node → Option String
  | .map kvs =>
    (match lookupKey "type" kvs with
     | some (.str s) => some s
     | _ => none)
  | _ => none

/-- A loadable source document defining `T` (complex: refs `U`) and `U`. -/
def goodDoc : Node := .map [("components", .map [("schemas", .map [
  ("T", .map [("$ref", .str "#/components/schemas/U")]),
  ("U", .map [("type", .str "string")])])])]

/-- An event schema with one resolvable cross-file ref (to `good.yaml#T`) and
one ref to a missing document. -/
def evDoc0 : Node := .map [
  ("info", .map [("description", .str "Events.")]),
  ("components", .map [("schemas", .map [
    ("Evt", .map [("properties", .map [
      ("g", .map [("$ref", .str "./good.yaml#/components/schemas/T")]),
      ("m", .map [("$ref", .str "./missing.yaml#/components/schemas/V")])])])])])]

/-- Document store for the event scenario: only `good.yaml` exists. -/
def evFS : List (String × Node) := [("good.yaml", goodDoc)]

/-- A library document with a simple base type. -/
def libDoc : Node := .map [("components", .map [("schemas", .map [
  ("Base", .map [("type", .str "object")])])])]

/-- An API schema with a cross-file `allOf` ref into `lib.yaml` and an
unrelated cross-document ref `common.yaml#/defs/Address` (the spec's path
adjustment example). -/
def apiDoc0 : Node := .map [("components", .map [("schemas", .map [
  ("Thing", .map [("allOf", .arr [.map [("$ref", .str "./lib.yaml#/components/schemas/Base")]])]),
  ("Addr", .map [("$ref", .str "common.yaml#/defs/Address")])])])]

/-- Document store for the API scenario. -/
def apiFS : List (String × Node) := [("lib.yaml", libDoc), ("common.yaml", .map [])]

/-- A property chain of the given nesting depth, for exercising the traversal
depth guard. -/
def chain : Nat → Node
  | 0 => .map [("type", .str "string")]
  | n + 1 => .map [("type", .str "object"), ("properties", .map [("a", chain n)])]

/-- A mutually recursive schema store: `A` refs `B` (bare local form), `B`
refs `A` (self-qualified form). -/
def cycS : List (String × Node) := [
  ("A", .map [("$ref", .str "#/components/schemas/B")]),
  ("B", .map [("$ref", .str "./#/components/schemas/A")])]

/-! ## Archive extractor closure (`extract-archive-schemas.py`,
`collect_type_with_deps`)

Unlike the per-file collectors, this collector is keyed by bare type name
across files and follows both local and cross-file refs; `find_refs_in_type`
returns a Python `set` of `(file_path or None, type_name)` pairs, so the
iteration order is again taken as a parameter `O` (any enumeration of that
set). -/

/-- Classification of one `$ref` string by `find_refs_in_type`: the
cross-file pattern first, else the bare local pattern, else nothing. -/
def classify_archive_ref (s : String) : Option (Option String × String) :=
  match match_cross_api s with
  | some (f, t) => some (some f, t)
  | none =>
    match match_local_archive s with
    | some t => some (none, t)
    | none => none

/-- `find_refs_in_type(type_def)` as a duplicate-free list in discovery
order (membership equals the Python set). -/
def find_refs_in_type (d : Node) : List (Option String × String) :=
  ((refStrings d).filterMap classify_archive_ref).dedup

/-- Embedding of `collect_type_with_deps(type_name, schemas, schema_dir,
collected, loaded_schemas)`.  `fs` is the document store (`schema_dir`);
`schemas` is the name-to-definition map currently in scope (it switches to
the loaded file's `components/schemas` for a cross-file ref); `collected` is
the shared name-keyed output dict.  A file that fails to load warns and is
skipped; a ref whose name was already collected — from whatever file — is
skipped.  The fuel argument only makes the embedding total. -/
def collect_type_with_deps (fs : List (String × Node))
    (O : Node → List (Option String × String)) :
    Nat → String → List (String × Node) → List (String × Node) → List (String × Node)
  | 0, _, _, collected => collected
  | fuel + 1, name, schemas, collected =>
    if hasKey collected name then collected
    else
      match lookupKey name schemas with
      | none => collected
      | some d =>
        (O d).foldl
          (fun acc pr =>
            if hasKey acc pr.2 then acc
            else
              match pr.1 with
              | some f =>
                (match lookupKey f fs with
                 | none => acc
                 | some src =>
                   if hasKey (components_schemas src) pr.2 then
                     collect_type_with_deps fs O fuel pr.2 (components_schemas src) acc
                   else acc)
              | none => collect_type_with_deps fs O fuel pr.2 schemas acc)
          (collected ++ [(name, d)])

/-- A plugin schema map whose root `A` references the type name `X` both
locally and cross-file into `other.yaml`. -/
def archiveSA : List (String × Node) := [
  ("A", .map [("allOf", .arr [
    .map [("$ref", .str "#/components/schemas/X")],
    .map [("$ref", .str "other.yaml#/components/schemas/X")]])]),
  ("X", .map [("type", .str "string")])]

/-- The other document: its own `X` (with a further dependency `Y`). -/
def otherDoc : Node := .map [("components", .map [("schemas", .map [
  ("X", .map [("$ref", .str "#/components/schemas/Y")]),
  ("Y", .map [("type", .str "integer")])])])]

/-- Document store for the archive scenario. -/
def archiveFS : List (String × Node) := [("other.yaml", otherDoc)]

/-- One valid enumeration of each ref set: discovery order. -/
def archiveO1 : Node → List (Option String × String) := find_refs_in_type

/-- Another valid enumeration of each ref set: reversed discovery order. -/
def archiveO2 (d : Node) : List (Option String × String) := (find_refs_in_type d).reverse

/-! ## Claims -/

/-- C1: Closure output guarantee (amended) — for the per-file collector
`get_type_with_dependencies` (event and API resolvers), for every universe of
source definitions and every root, with any valid enumeration orders of the
per-definition reference sets and sufficient fuel, the collected dictionary
contains exactly the types transitively reachable from the root that are
defined in the source, each exactly once with its source definition, and the
resulting key set is independent of the enumeration order.  The guarantee
does not extend to the archive extractor's `collect_type_with_deps`, whose
name-keyed, cross-file collection is order-dependent (see the
counterexample). -/
theorem C1_closure_exact (S : List (String × Node)) (O1 O2 : Node → List String)
    (hO1 : ∀ (d : Node) (r : String), r ∈ O1 d ↔ r ∈ find_local_refs d)
    (hO2 : ∀ (d : Node) (r : String), r ∈ O2 d ↔ r ∈ find_local_refs d)
    (fuel1 fuel2 : Nat) (hf1 : (keyFinset S).card < fuel1)
    (hf2 : (keyFinset S).card < fuel2) (root : String) :
    (∀ t, hasKey (get_type_with_dependencies S O1 fuel1 root []) t = true ↔
      (Reaches S root t ∧ (lookupKey t S).isSome = true)) ∧
    (keysOf (get_type_with_dependencies S O1 fuel1 root [])).Nodup ∧
    (∀ p ∈ get_type_with_dependencies S O1 fuel1 root [], lookupKey p.1 S = some p.2) ∧
    (keysOf (get_type_with_dependencies S O1 fuel1 root [])).toFinset =
      (keysOf (get_type_with_dependencies S O2 fuel2 root [])).toFinset := by
  obtain ⟨h1, h2, h3⟩ := collect_characterization S O1 hO1 fuel1 root hf1
  exact ⟨h1, h2, h3, collect_order_independent S O1 O2 hO1 hO2 fuel1 fuel2 hf1 hf2 root⟩

/-- Instantiation of the closure guarantee on `goodDoc`. -/
theorem C1_closure_exact_witness :
    (∀ t, hasKey (get_type_with_dependencies (components_schemas goodDoc) evOrder 10 "T" [])
        t = true ↔
      (Reaches (components_schemas goodDoc) "T" t ∧
        (lookupKey t (components_schemas goodDoc)).isSome = true)) ∧
    (keysOf (get_type_with_dependencies (components_schemas goodDoc) evOrder 10 "T" [])).Nodup ∧
    (∀ p ∈ get_type_with_dependencies (components_schemas goodDoc) evOrder 10 "T" [],
      lookupKey p.1 (components_schemas goodDoc) = some p.2) ∧
    (keysOf (get_type_with_dependencies (components_schemas goodDoc) evOrder 10 "T" [])).toFinset =
      (keysOf (get_type_with_dependencies (components_schemas goodDoc)
        apiOrder 12 "T" [])).toFinset :=
  C1_closure_exact (components_schemas goodDoc) evOrder apiOrder evOrder_valid apiOrder_valid
    10 12 (by decide) (by decide) "T"

/-- C1 counterexample: the archive extractor's collector
(`collect_type_with_deps`) keys `collected` by bare type name across files,
so when `A` references the name `X` both locally and cross-file, the
set-iteration order decides which `X` — and whose transitive dependencies —
are collected: both orders below enumerate the same ref set, yet one collects
`A` with the local string-typed `X`, the other collects `A` with
`other.yaml`'s `X` plus its dependency `Y`; the reachable `Y` is missing from
the first run, refuting completeness and order-independence for this cited
collector. -/
theorem C1_counterexample :
    (∀ (d : Node) (p : Option String × String), p ∈ archiveO1 d ↔ p ∈ find_refs_in_type d) ∧
    (∀ (d : Node) (p : Option String × String), p ∈ archiveO2 d ↔ p ∈ find_refs_in_type d) ∧
    keysOf (collect_type_with_deps archiveFS archiveO1 10 "A" archiveSA []) = ["A", "X"] ∧
    keysOf (collect_type_with_deps archiveFS archiveO2 10 "A" archiveSA []) =
      ["A", "X", "Y"] ∧
    (lookupKey "X" (collect_type_with_deps archiveFS archiveO1 10 "A" archiveSA [])).bind
      typeTag = some "string" ∧
    refStrings ((lookupKey "X"
      (collect_type_with_deps archiveFS archiveO2 10 "A" archiveSA [])).getD Node.null) =
      ["#/components/schemas/Y"] :=
  ⟨fun d p => Iff.rfl, fun d p => List.mem_reverse, by decide, by decide, by decide, by decide⟩

/-- C2: Cycle termination — when `A` and `B` reference each other, collecting
from root `A` (a total function; the fuel covers the schema map, so the
recursion is never cut) yields exactly one definition each of `A` and `B`,
every collected entry keeps its source definition, and the rewriter turns a
self-qualified reference back to `A` into the bare local pointer, which is
stable (not re-expanded). -/
theorem C2_cycle_termination (S : List (String × Node)) (O : Node → List String)
    (hO : ∀ (d : Node) (r : String), r ∈ O d ↔ r ∈ find_local_refs d)
    (fuel : Nat) (hfuel : (keyFinset S).card < fuel)
    (A B : String) (dA dB : Node)
    (hA : lookupKey A S = some dA) (hB : lookupKey B S = some dB)
    (hab : B ∈ find_local_refs dA) (_hba : A ∈ find_local_refs dB)
    (inl : List String)
    (hq : ∀ c ∈ A.data, isQuoteChar c = false) (hne : A.data ≠ []) :
    hasKey (get_type_with_dependencies S O fuel A []) A = true ∧
    hasKey (get_type_with_dependencies S O fuel A []) B = true ∧
    (keysOf (get_type_with_dependencies S O fuel A [])).Nodup ∧
    (∀ p ∈ get_type_with_dependencies S O fuel A [], lookupKey p.1 S = some p.2) ∧
    convert_ref_event inl ("./" ++ localRefStr A) = localRefStr A ∧
    fix_ref (localRefStr A) = localRefStr A := by
  obtain ⟨h1, h2, h3⟩ := collect_characterization S O hO fuel A hfuel
  refine ⟨?_, ?_, h2, h3, conv_self_qualified inl A hq hne, fix_local_stable A⟩
  · exact (h1 A).mpr ⟨Reaches.refl, by simp [hA]⟩
  · exact (h1 B).mpr ⟨Reaches.step Reaches.refl hA hab, by simp [hB]⟩

/-- Instantiation of cycle termination on the two-cycle `cycS`. -/
theorem C2_cycle_termination_witness :
    hasKey (get_type_with_dependencies cycS evOrder 5 "A" []) "A" = true ∧
    hasKey (get_type_with_dependencies cycS evOrder 5 "A" []) "B" = true ∧
    (keysOf (get_type_with_dependencies cycS evOrder 5 "A" [])).Nodup ∧
    (∀ p ∈ get_type_with_dependencies cycS evOrder 5 "A" [], lookupKey p.1 cycS = some p.2) ∧
    convert_ref_event ["A", "B"] ("./" ++ localRefStr "A") = localRefStr "A" ∧
    fix_ref (localRefStr "A") = localRefStr "A" :=
  C2_cycle_termination cycS evOrder evOrder_valid 5 (by decide) "A" "B"
    (Node.map [("$ref", Node.str "#/components/schemas/B")])
    (Node.map [("$ref", Node.str "./#/components/schemas/A")])
    rfl rfl (by decide) (by decide) ["A", "B"] (by decide) (by decide)

/-- C3: Self-qualified equivalence (amended) — classification treats the
bare, `./`-qualified and filename-self-qualified local forms identically, but
rewriting does not: the dotted forms normalize to the bare local pointer,
while the filename-self-qualified form is skipped by the conversion and then
caught by the sibling-path fixer, which turns it into a `../`-prefixed
cross-file pointer instead of the bare local form. -/
theorem C3_self_qualified (t : String) (a : Char) (w : List Char)
    (ha : isAlphaChar a = true) (hw : ∀ c ∈ w, isNameChar c = true)
    (hq : ∀ c ∈ t.data, isQuoteChar c = false) (hne : t.data ≠ [])
    (hnl : ∀ c ∈ t.data, ¬ c = nlChar) (inl : List String) :
    classify_local (some (String.mk (a :: w) ++ ".yaml")) (localRefStr t) = some t ∧
    classify_local (some (String.mk (a :: w) ++ ".yaml")) ("./" ++ localRefStr t) = some t ∧
    classify_local (some (String.mk (a :: w) ++ ".yaml"))
      ((String.mk (a :: w) ++ ".yaml") ++ localRefStr t) = some t ∧
    rewrite_ref inl (localRefStr t) = localRefStr t ∧
    rewrite_ref inl ("./" ++ localRefStr t) = localRefStr t ∧
    rewrite_ref inl ((String.mk (a :: w) ++ ".yaml") ++ localRefStr t) =
      "../" ++ (String.mk (a :: w) ++ ".yaml") ++ "#" ++ ("/components/schemas/" ++ t) := by
  have hsrc : (String.mk (a :: w) ++ ".yaml").data = a :: (w ++ (".yaml").data) := rfl
  have hdata : ((String.mk (a :: w) ++ ".yaml") ++ localRefStr t).data =
      a :: ((w ++ (".yaml").data) ++ (compSchemasPat ++ t.data)) := by
    show ((a :: w) ++ (".yaml").data) ++ (localRefStr t).data = _
    rw [localRefStr_data]
    simp [List.cons_append]
  have hqa : isQuoteChar a = false := quote_false_of_alpha ha
  have hdot : a ≠ '.' := class_ne ha (by decide : isAlphaChar '.' = false)
  have hseq : (String.mk (a :: w) ++ ".yaml") ++ localRefStr t =
      String.mk (a :: w) ++ ".yaml#" ++ ("/components/schemas/" ++ t) := by
    apply string_data_inj
    show ((a :: w) ++ (".yaml").data) ++ (localRefStr t).data =
      (((a :: w) ++ (".yaml#").data) ++ (("/components/schemas/").data ++ t.data))
    rw [localRefStr_data, compSchemasPat_eq]
    simp [List.cons_append, List.append_assoc, csTail]
  have hp : ("/components/schemas/" ++ t).data ≠ [] := by
    show csTail ++ t.data ≠ []
    rw [csTail]
    simp
  have hnlp : ∀ c ∈ ("/components/schemas/" ++ t).data, ¬ c = nlChar := by
    intro c hc
    rcases List.mem_append.mp hc with hc | hc
    · have hcs : ∀ c ∈ (("/components/schemas/").data), ¬ c = nlChar := by decide
      exact hcs c hc
    · exact hnl c hc
  have hmatch : match_sibling ((String.mk (a :: w) ++ ".yaml") ++ localRefStr t) =
      some (String.mk (a :: w) ++ ".yaml", "/components/schemas/" ++ t) := by
    rw [hseq]
    exact match_sibling_compute ("/components/schemas/" ++ t) ha hw hp hnlp
  have hconv : convert_ref_event inl ((String.mk (a :: w) ++ ".yaml") ++ localRefStr t) =
      (String.mk (a :: w) ++ ".yaml") ++ localRefStr t := by
    unfold convert_ref_event
    rw [match_cross_conv_head_ne hdata hqa hdot, match_self_conv_head_ne hdata hqa hdot]
  refine ⟨?_, ?_, classify_src_qualified _ t hsrc ha hq hne, ?_, ?_, ?_⟩
  · simp [classify_local, match_local_ref_bare t hq hne]
  · simp [classify_local, match_local_ref_self t hq hne]
  · show fix_ref (convert_ref_event inl (localRefStr t)) = localRefStr t
    rw [conv_local_stable, fix_local_stable]
  · show fix_ref (convert_ref_event inl ("./" ++ localRefStr t)) = localRefStr t
    rw [conv_self_qualified inl t hq hne, fix_local_stable]
  · show fix_ref (convert_ref_event inl ((String.mk (a :: w) ++ ".yaml") ++ localRefStr t)) = _
    rw [hconv, fix_ref_of_some hmatch]

/-- Instantiation of the self-qualified analysis inside `doc.yaml`. -/
theorem C3_self_qualified_witness :
    classify_local (some (String.mk ('d' :: ['o', 'c']) ++ ".yaml")) (localRefStr "T") =
      some "T" ∧
    classify_local (some (String.mk ('d' :: ['o', 'c']) ++ ".yaml"))
      ("./" ++ localRefStr "T") = some "T" ∧
    classify_local (some (String.mk ('d' :: ['o', 'c']) ++ ".yaml"))
      ((String.mk ('d' :: ['o', 'c']) ++ ".yaml") ++ localRefStr "T") = some "T" ∧
    rewrite_ref ["T"] (localRefStr "T") = localRefStr "T" ∧
    rewrite_ref ["T"] ("./" ++ localRefStr "T") = localRefStr "T" ∧
    rewrite_ref ["T"] ((String.mk ('d' :: ['o', 'c']) ++ ".yaml") ++ localRefStr "T") =
      "../" ++ (String.mk ('d' :: ['o', 'c']) ++ ".yaml") ++ "#" ++
        ("/components/schemas/" ++ "T") :=
  C3_self_qualified "T" 'd' ['o', 'c'] (by decide) (by decide) (by decide) (by decide)
    (by decide) ["T"]

/-- C3 counterexample: inside `doc.yaml`, the filename-self-qualified pointer
classifies like the bare one but is rewritten to `../doc.yaml#...`, not to
the bare local pointer — downstream the two forms are not identical. -/
theorem C3_counterexample :
    classify_local (some "doc.yaml") "doc.yaml#/components/schemas/T" = some "T" ∧
    classify_local (some "doc.yaml") "#/components/schemas/T" = some "T" ∧
    rewrite_ref ["T"] "#/components/schemas/T" = "#/components/schemas/T" ∧
    rewrite_ref ["T"] "doc.yaml#/components/schemas/T" =
      "../doc.yaml#/components/schemas/T" := by decide

/-- C4: Type identity (amended) — the merged dictionaries are keyed by bare
type name only: `generate-client-schema.py` keeps the first definition seen
for a name, and the `dict.update`-based resolvers answer lookups from the
update (later entries win, for duplicate-free update keys); a same-named
definition from another document is shadowed, not kept as a distinct
identity. -/
theorem C4_name_keyed_merge (all new : List (String × Node)) (t : String) :
    lookupKey t (merge_service_schemas all new) =
      (lookupKey t all).orElse (fun _ => lookupKey t new) ∧
    ((keysOf new).Nodup →
      lookupKey t (dictUpdate all new) =
        (lookupKey t new).orElse (fun _ => lookupKey t all)) :=
  ⟨merge_first_wins new all t, fun h => dictUpdate_lookup new all t h⟩

/-- Instantiation of the merge characterization on a one-key collision. -/
theorem C4_name_keyed_merge_witness :
    (keysOf [("T", Node.str "b")]).Nodup ∧
    (lookupKey "T" (merge_service_schemas [("T", Node.str "a")] [("T", Node.str "b")]) =
      (lookupKey "T" [("T", Node.str "a")]).orElse
        (fun _ => lookupKey "T" [("T", Node.str "b")]) ∧
     ((keysOf [("T", Node.str "b")]).Nodup →
      lookupKey "T" (dictUpdate [("T", Node.str "a")] [("T", Node.str "b")]) =
        (lookupKey "T" [("T", Node.str "b")]).orElse
          (fun _ => lookupKey "T" [("T", Node.str "a")]))) :=
  ⟨by decide, C4_name_keyed_merge [("T", Node.str "a")] [("T", Node.str "b")] "T"⟩

/-- C4 counterexample: two same-named types with different definitions from
different documents collapse to a single entry keyed by name; the client
merge keeps the first and drops the second — the distinct identity is lost. -/
theorem C4_counterexample :
    keysOf (merge_service_schemas [("T", Node.map [("type", Node.str "string")])]
      [("T", Node.map [("type", Node.str "integer")])]) = ["T"] ∧
    (lookupKey "T" [("T", Node.map [("type", Node.str "string")])]).bind typeTag =
      some "string" ∧
    (lookupKey "T" [("T", Node.map [("type", Node.str "integer")])]).bind typeTag =
      some "integer" ∧
    (lookupKey "T" (merge_service_schemas [("T", Node.map [("type", Node.str "string")])]
      [("T", Node.map [("type", Node.str "integer")])])).bind typeTag = some "string" := by
  decide

/-- C5: Path adjustment (amended) — the event pipeline's sibling-path fixer
rewrites every matched cross-document reference `file.yaml#pointer` to
`../file.yaml#pointer`, but the API resolver has no such pass: its only
string rewrite either leaves a reference unchanged or replaces it with a bare
local pointer, so a reference like `common.yaml#/defs/Address` keeps its
original relative path in the API resolver's output. -/
theorem C5_path_adjustment (s f p : String) (h : match_sibling s = some (f, p))
    (inl : List String) (s2 : String) :
    fix_ref s = "../" ++ f ++ "#" ++ p ∧
    (convert_ref_api inl s2 = s2 ∨ ∃ u, convert_ref_api inl s2 = localRefStr u) :=
  ⟨fix_ref_of_some h, convert_ref_api_cases inl s2⟩

/-- Instantiation of the path-adjustment contrast. -/
theorem C5_path_adjustment_witness :
    match_sibling "doc.yaml#/x" = some ("doc.yaml", "/x") ∧
    (fix_ref "doc.yaml#/x" = "../" ++ "doc.yaml" ++ "#" ++ "/x" ∧
     (convert_ref_api ["T"] "common.yaml#/defs/Address" = "common.yaml#/defs/Address" ∨
      ∃ u, convert_ref_api ["T"] "common.yaml#/defs/Address" = localRefStr u)) :=
  ⟨by decide, C5_path_adjustment "doc.yaml#/x" "doc.yaml" "/x" (by decide) ["T"]
    "common.yaml#/defs/Address"⟩

/-- C5 counterexample: the spec's example reference survives the API
resolver's bundling unchanged — no `../` is inserted, because
`resolve_api_schema` has no path-adjustment pass. -/
theorem C5_counterexample :
    ((resolve_api_schema apiFS apiDoc0).map refStrings) =
      some ["#/components/schemas/Base", "common.yaml#/defs/Address"] := by decide

/-- C6: Rewrite idempotence (amended) — the conversion-then-path-fix step is
idempotent on every document none of whose `$ref` strings is a bare
sibling-file pointer into `components/schemas` of an inlined type; on such
refs a second pass rewrites again (see the counterexample). -/
theorem C6_rewrite_idempotent (inl : List String) (doc : Node)
    (h : ∀ s ∈ refStrings doc, ¬ bare_sibling_to_inlined inl s) :
    rewrite_step inl (rewrite_step inl doc) = rewrite_step inl doc :=
  rewrite_step_idem inl doc h

/-- Instantiation of idempotence on a `./`-self-qualified document. -/
theorem C6_rewrite_idempotent_witness :
    rewrite_step ["T"] (rewrite_step ["T"]
      (Node.map [("$ref", Node.str "./#/components/schemas/T")])) =
      rewrite_step ["T"] (Node.map [("$ref", Node.str "./#/components/schemas/T")]) :=
  C6_rewrite_idempotent ["T"] (Node.map [("$ref", Node.str "./#/components/schemas/T")])
    (by
      intro s hs
      rw [show refStrings (Node.map [("$ref", Node.str "./#/components/schemas/T")]) =
        ["./#/components/schemas/T"] from rfl] at hs
      have hse := List.mem_singleton.mp hs
      subst hse
      rintro ⟨f, p, hm, -, -, -⟩
      rw [show match_sibling "./#/components/schemas/T" = none from by decide] at hm
      cases hm)

/-- C6 counterexample: a bare sibling ref to an inlined type is first pushed
to `../x.yaml#...` by the path fixer and only on the second pass collapsed to
the bare local pointer — the rewrite step is not idempotent in general. -/
theorem C6_counterexample :
    refStrings (rewrite_step ["T"]
      (Node.map [("$ref", Node.str "x.yaml#/components/schemas/T")])) =
      ["../x.yaml#/components/schemas/T"] ∧
    refStrings (rewrite_step ["T"] (rewrite_step ["T"]
      (Node.map [("$ref", Node.str "x.yaml#/components/schemas/T")]))) =
      ["#/components/schemas/T"] := by decide

/-- C7: Fresh-process determinism (amended) — the API resolver's insertion is
sorted by type name and hence canonical: any two collection orders of the
same inlined-type dictionary give the same sorted insertion sequence and the
same sorted `x-inlined-types` list.  The event resolver inserts in dictionary
order inherited from hash-ordered set iteration and is not canonicalized (see
the counterexample). -/
theorem C7_sorted_insertion (ti1 ti2 : List (String × Node)) (hp : ti1.Perm ti2)
    (hnd : (keysOf ti1).Nodup) :
    sortByKey ti1 = sortByKey ti2 ∧
    sortStrings (keysOf ti1) = sortStrings (keysOf ti2) := by
  refine ⟨sortByKey_eq_of_perm ti1 ti2 hp hnd, ?_⟩
  simp only [sortStrings, keysOf]
  exact List.eq_of_perm_of_sorted
    (((List.perm_insertionSort _ _).trans (hp.map Prod.fst)).trans
      (List.perm_insertionSort _ _).symm)
    (List.sorted_insertionSort _ _) (List.sorted_insertionSort _ _)

/-- Instantiation of sorted-insertion determinism on a two-key swap. -/
theorem C7_sorted_insertion_witness :
    sortByKey [("B", Node.str "b"), ("A", Node.str "a")] =
      sortByKey [("A", Node.str "a"), ("B", Node.str "b")] ∧
    sortStrings (keysOf [("B", Node.str "b"), ("A", Node.str "a")]) =
      sortStrings (keysOf [("A", Node.str "a"), ("B", Node.str "b")]) :=
  C7_sorted_insertion [("B", Node.str "b"), ("A", Node.str "a")]
    [("A", Node.str "a"), ("B", Node.str "b")]
    (List.Perm.swap ("A", Node.str "a") ("B", Node.str "b") []) (by decide)

/-- C7 counterexample: the event resolver's assembly inserts the inlined
definitions in dictionary order; two enumeration orders of the same set give
outputs whose `components/schemas` key sequences differ, so fresh-process
runs are not byte-identical. -/
theorem C7_counterexample :
    (List.Perm
      [("A", Node.map [("type", Node.str "object")]),
        ("B", Node.map [("type", Node.str "string")])]
      [("B", Node.map [("type", Node.str "string")]),
        ("A", Node.map [("type", Node.str "object")])]) ∧
    keysOf (components_schemas (assemble_event []
      [("A", Node.map [("type", Node.str "object")]),
        ("B", Node.map [("type", Node.str "string")])] "s")) = ["A", "B"] ∧
    keysOf (components_schemas (assemble_event []
      [("B", Node.map [("type", Node.str "string")]),
        ("A", Node.map [("type", Node.str "object")])] "s")) = ["B", "A"] :=
  ⟨List.Perm.swap _ _ _, by decide, by decide⟩

/-- C8: Soft failure — with `missing.yaml` unloadable, the run records the
warning, keeps the offending `$ref` as its original string, still inlines the
resolvable types `T` and `U`, and produces an output; the meta-schema
embedder replaces a non-local ref with the generic opaque-object placeholder;
the (spec-modelled) strict mode instead exits non-zero with no output. -/
theorem C8_soft_failure :
    (resolve_event_schema evFS evDoc0 "svc-events.yaml").warnings =
      ["Warning: Could not load missing.yaml"] ∧
    (Option.map (fun n => keysOf (components_schemas n))
      (resolve_event_schema evFS evDoc0 "svc-events.yaml").out) = some ["Evt", "T", "U"] ∧
    ((resolve_event_schema evFS evDoc0 "svc-events.yaml").out.map refStrings) =
      some ["#/components/schemas/T", "./missing.yaml#/components/schemas/V",
        "#/components/schemas/U"] ∧
    resolve_ref_meta "common.yaml#/defs/X" (Node.map []) =
      Node.map [("type", Node.str "object")] ∧
    strictResolveEvent evFS evDoc0 "svc-events.yaml" = Except.error 1 :=
  ⟨by decide, by decide, by decide, rfl, rfl⟩

/-- C9: Cycle guard (amended) — the traversal's recursion-depth ceiling is
10, and exceeding it silently returns the accumulated paths and continues;
there is no hard failure and no ~32-level ceiling. -/
theorem C9_depth_guard (cur : Node) (allS : List (String × Node)) (fuel : Nat)
    (schema : Node) (path : String) (paths : List (String × String))
    (visited : List String) (depth : Nat) (h : depth > 10) :
    traverse_schema cur allS (fuel + 1) schema path paths visited depth = paths :=
  traverse_depth_guard cur allS fuel schema path paths visited depth h

/-- Instantiation of the guard at depth 11. -/
theorem C9_depth_guard_witness :
    11 > 10 ∧ traverse_schema (Node.map []) [] 1 (chain 3) "" [] [] 11 = [] :=
  ⟨by decide, C9_depth_guard (Node.map []) [] 0 (chain 3) "" [] [] 11 (by decide)⟩

/-- C9 counterexample: a 13-level property chain is silently truncated (11 of
13 paths recorded, versus all 9 for a 9-level chain) with no failure
signalled — not a hard `CycleGuardTripped` failure at ~32 levels. -/
theorem C9_counterexample :
    (traverse_schema (Node.map []) [] 100 (chain 9) "" [] [] 0).length = 9 ∧
    (traverse_schema (Node.map []) [] 100 (chain 13) "" [] [] 0).length = 11 := by decide

/-- C10: No-op behavior — an API schema without cross-file `allOf` refs
resolves to `None`; an event schema without cross-file refs resolves to
`None`; and an event schema whose cross-file refs reach only non-complex (or
missing) definitions also resolves to `None` — a bundled artifact exists only
when something was actually inlined. -/
theorem C10_no_op :
    (∀ (fs : List (String × Node)) (apiDoc : Node),
      find_allof_cross_file_refs apiDoc = [] → resolve_api_schema fs apiDoc = none) ∧
    (∀ (fs : List (String × Node)) (evDoc : Node) (srcName : String),
      find_cross_file_refs evDoc = [] → (resolve_event_schema fs evDoc srcName).out = none) ∧
    (∀ (fs : List (String × Node)) (evDoc : Node) (srcName : String),
      (∀ p ∈ find_cross_file_refs evDoc, ∀ src, loadSource fs p.1 = some src →
        ∀ d, lookupKey p.2 (components_schemas src) = some d → has_nested_refs d = false) →
      (resolve_event_schema fs evDoc srcName).out = none) :=
  ⟨resolve_api_none_of_no_allof, resolve_event_none_of_no_cross,
    resolve_event_none_of_no_complex⟩

/-- Instantiation of the no-op behavior: an empty API schema, an empty event
schema, and an event schema whose only cross-file ref reaches the simple
type `U`. -/
theorem C10_no_op_witness :
    resolve_api_schema apiFS (Node.map []) = none ∧
    (resolve_event_schema evFS (Node.map []) "x").out = none ∧
    (resolve_event_schema evFS
      (Node.map [("$ref", Node.str "./good.yaml#/components/schemas/U")]) "x").out = none := by
  refine ⟨C10_no_op.1 apiFS (Node.map []) rfl, C10_no_op.2.1 evFS (Node.map []) "x" rfl, ?_⟩
  apply C10_no_op.2.2 evFS _ "x"
  intro p hp src hsrc d hd
  rw [show find_cross_file_refs
    (Node.map [("$ref", Node.str "./good.yaml#/components/schemas/U")]) =
    [("good.yaml", "U")] from rfl] at hp
  have hp2 := List.mem_singleton.mp hp
  subst hp2
  rw [show loadSource evFS "good.yaml" = some goodDoc from rfl] at hsrc
  have hsg := Option.some.inj hsrc
  subst hsg
  rw [show lookupKey "U" (components_schemas goodDoc) =
    some (Node.map [("type", Node.str "string")]) from rfl] at hd
  have hdd := Option.some.inj hd
  rw [← hdd]
  decide

end SchemaRes
